import Mathlib

/-!
SHA-256 streaming engine and HMAC-SHA512 of libbitcoin-system.

A shallow embedding of `src/math/external/sha256.c`, `src/math/external/hmac_sha512.c`
and the wrappers of `src/math/hash.cpp`.

Bytes and machine words are natural numbers; every C operation that can leave the
range of its type is followed by an explicit reduction modulo `2 ^ 32`.  Buffers are
lists.  A C function that mutates a record through a pointer is a function returning
the new record.
-/

set_option autoImplicit false
set_option maxRecDepth 1000000

/-! ## `sha256.c` -/

/-- Sizes declared in `sha256.h`. -/
def SHA256_STATE_LENGTH : Nat := 8

def SHA256_COUNT_LENGTH : Nat := 2

def SHA256_BLOCK_LENGTH : Nat := 64

def SHA256_DIGEST_LENGTH : Nat := 32

/-- The record `SHA256CTX` of `sha256.h`: `uint32_t state[8]`, `uint32_t count[2]`,
`uint8_t buf[64]`. -/
structure SHA256CTX where
  state : List Nat
  count : List Nat
  buf : List Nat
  deriving DecidableEq, Repr

/-- Conversion to `uint32_t`. -/
def u32 (x : Nat) : Nat := x % 2 ^ 32

/-- `be32dec`: the big-endian word stored in the four bytes at `p`. -/
def be32dec (p : List Nat) : Nat :=
  u32 (p.getD 3 0 + u32 (p.getD 2 0 <<< 8) + u32 (p.getD 1 0 <<< 16) + u32 (p.getD 0 0 <<< 24))

/-- `be32enc`: the four bytes `p[0]`, `p[1]`, `p[2]`, `p[3]` written for the word `x`. -/
def be32enc (x : Nat) : List Nat :=
  [(x >>> 24) &&& 0xff, (x >>> 16) &&& 0xff, (x >>> 8) &&& 0xff, x &&& 0xff]

/-- `be32enc_vect`: the `len / 4` words of `src` serialised one after the other. -/
def be32enc_vect (src : List Nat) (len : Nat) : List Nat :=
  ((List.range (len / 4)).map fun i => be32enc (src.getD i 0)).flatten

/-- `be32dec_vect`: the `len / 4` words read from `src` at offsets `i * 4`. -/
def be32dec_vect (src : List Nat) (len : Nat) : List Nat :=
  (List.range (len / 4)).map fun i => be32dec (src.drop (i * 4))

def Ch (x y z : Nat) : Nat := (x &&& (y ^^^ z)) ^^^ z

def Maj (x y z : Nat) : Nat := (x &&& (y ||| z)) ||| (y &&& z)

def SHR (x n : Nat) : Nat := x >>> n

def ROTR (x n : Nat) : Nat := u32 ((x >>> n) ||| u32 (x <<< (32 - n)))

def S0 (x : Nat) : Nat := ROTR x 2 ^^^ ROTR x 13 ^^^ ROTR x 22

def S1 (x : Nat) : Nat := ROTR x 6 ^^^ ROTR x 11 ^^^ ROTR x 25

def s0 (x : Nat) : Nat := ROTR x 7 ^^^ ROTR x 18 ^^^ SHR x 3

def s1 (x : Nat) : Nat := ROTR x 17 ^^^ ROTR x 19 ^^^ SHR x 10

/-- `RNDr(S, W, i, k)`: one round on the register file `S`, the registers being taken
at the rotated indices `(64 - i) % 8 … (71 - i) % 8`; `RND` updates `d` and `h`. -/
def RNDr (S W : List Nat) (i k : Nat) : List Nat :=
  let a := S.getD ((64 - i) % 8) 0
  let b := S.getD ((65 - i) % 8) 0
  let c := S.getD ((66 - i) % 8) 0
  let d := S.getD ((67 - i) % 8) 0
  let e := S.getD ((68 - i) % 8) 0
  let f := S.getD ((69 - i) % 8) 0
  let g := S.getD ((70 - i) % 8) 0
  let h := S.getD ((71 - i) % 8) 0
  let t0 := u32 (h + S1 e + Ch e f g + W.getD i 0 + k)
  let t1 := u32 (S0 a + Maj a b c)
  (S.set ((67 - i) % 8) (u32 (d + t0))).set ((71 - i) % 8) (u32 (t0 + t1))

/-- The 64 lines `RNDr(S, W, i, k)` of `internalSHA256Transform`, in order: the round
index `i` and the constant `k` of each. -/
def rounds : List (Nat × Nat) :=
  [(0, 0x428a2f98), (1, 0x71374491), (2, 0xb5c0fbcf), (3, 0xe9b5dba5),
   (4, 0x3956c25b), (5, 0x59f111f1), (6, 0x923f82a4), (7, 0xab1c5ed5),
   (8, 0xd807aa98), (9, 0x12835b01), (10, 0x243185be), (11, 0x550c7dc3),
   (12, 0x72be5d74), (13, 0x80deb1fe), (14, 0x9bdc06a7), (15, 0xc19bf174),
   (16, 0xe49b69c1), (17, 0xefbe4786), (18, 0x0fc19dc6), (19, 0x240ca1cc),
   (20, 0x2de92c6f), (21, 0x4a7484aa), (22, 0x5cb0a9dc), (23, 0x76f988da),
   (24, 0x983e5152), (25, 0xa831c66d), (26, 0xb00327c8), (27, 0xbf597fc7),
   (28, 0xc6e00bf3), (29, 0xd5a79147), (30, 0x06ca6351), (31, 0x14292967),
   (32, 0x27b70a85), (33, 0x2e1b2138), (34, 0x4d2c6dfc), (35, 0x53380d13),
   (36, 0x650a7354), (37, 0x766a0abb), (38, 0x81c2c92e), (39, 0x92722c85),
   (40, 0xa2bfe8a1), (41, 0xa81a664b), (42, 0xc24b8b70), (43, 0xc76c51a3),
   (44, 0xd192e819), (45, 0xd6990624), (46, 0xf40e3585), (47, 0x106aa070),
   (48, 0x19a4c116), (49, 0x1e376c08), (50, 0x2748774c), (51, 0x34b0bcb5),
   (52, 0x391c0cb3), (53, 0x4ed8aa4a), (54, 0x5b9cca4f), (55, 0x682e6ff3),
   (56, 0x748f82ee), (57, 0x78a5636f), (58, 0x84c87814), (59, 0x8cc70208),
   (60, 0x90befffa), (61, 0xa4506ceb), (62, 0xbef9a3f7), (63, 0xc67178f2)]

/-- The message schedule: `W[0..15]` decoded from the block, then
`W[i] = s1(W[i - 2]) + W[i - 7] + s0(W[i - 15]) + W[i - 16]` for `i = 16 … 63`. -/
def schedule (block : List Nat) : List Nat :=
  (List.range 48).foldl
    (fun W j =>
      let i := j + 16
      W ++ [u32 (s1 (W.getD (i - 2) 0) + W.getD (i - 7) 0 + s0 (W.getD (i - 15) 0)
        + W.getD (i - 16) 0)])
    (be32dec_vect block SHA256_BLOCK_LENGTH)

/-- `internalSHA256Transform`: the new value of `state` after compressing `block`. -/
def internalSHA256Transform (state block : List Nat) : List Nat :=
  let W := schedule block
  let S := state.take 8
  let S := rounds.foldl (fun S r => RNDr S W r.1 r.2) S
  (List.range 8).map fun i => u32 (state.getD i 0 + S.getD i 0)

/-- The table `PAD`. -/
def PAD : List Nat := 0x80 :: List.replicate 63 0

/-- `internalSHA256Init`: counters and state are set, `buf` is left as it was. -/
def internalSHA256Init (context : SHA256CTX) : SHA256CTX :=
  { context with
    count := [0, 0]
    state := [0x6A09E667, 0xBB67AE85, 0x3C6EF372, 0xA54FF53A,
              0x510E527F, 0x9B05688C, 0x1F83D9AB, 0x5BE0CD19] }

/-- `memcpy(&dst[off], src, n)`. -/
def memcpy (dst : List Nat) (off : Nat) (src : List Nat) (n : Nat) : List Nat :=
  dst.take off ++ src.take n ++ dst.drop (off + n)

/-- The loop `while (length >= 64) { Transform(state, input); input += 64; length -= 64; }`
of `internalSHA256Update`; it returns the state and the input left over.  The first
argument bounds the number of iterations. -/
def transformLoop : Nat → List Nat → List Nat → List Nat × List Nat
  | 0, state, input => (state, input)
  | fuel + 1, state, input =>
    if input.length ≥ 64 then
      transformLoop fuel (internalSHA256Transform state input) (input.drop 64)
    else (state, input)

/-- `internalSHA256Update(context, input, length)` with `length = input.length`. -/
def internalSHA256Update (context : SHA256CTX) (input : List Nat) : SHA256CTX :=
  let length := input.length
  let r := (context.count.getD 1 0 >>> 3) &&& 0x3f
  let bitlen1 := u32 (u32 length <<< 3)
  let bitlen0 := u32 (length >>> 29)
  let count1 := u32 (context.count.getD 1 0 + bitlen1)
  let count0 := if count1 < bitlen1 then u32 (context.count.getD 0 0 + 1)
    else context.count.getD 0 0
  let count0 := u32 (count0 + bitlen0)
  let context := { context with count := [count0, count1] }
  if length < 64 - r then
    { context with buf := memcpy context.buf r input length }
  else
    let buf := memcpy context.buf r input (64 - r)
    let state := internalSHA256Transform context.state buf
    let input := input.drop (64 - r)
    let (state, input) := transformLoop input.length state input
    { context with state := state, buf := memcpy buf 0 input input.length }

/-- `internalSHA256Pad`. -/
def internalSHA256Pad (context : SHA256CTX) : SHA256CTX :=
  let len := be32enc_vect context.count 8
  let r := (context.count.getD 1 0 >>> 3) &&& 0x3f
  let plen := if r < 56 then 56 - r else 120 - r
  let context := internalSHA256Update context (PAD.take plen)
  internalSHA256Update context len

/-- Modelled from the spec: `zeroize` of `zeroize.h` is not part of the sources; the
spec describes it as "overwrites a buffer with zero bytes".  Applied to a whole
`SHA256CTX` it clears the eight state words, the two count words and the 64 buffer
bytes. -/
def zeroizeSHA256CTX (_context : SHA256CTX) : SHA256CTX :=
  { state := List.replicate SHA256_STATE_LENGTH 0
    count := List.replicate SHA256_COUNT_LENGTH 0
    buf := List.replicate SHA256_BLOCK_LENGTH 0 }

/-- `internalSHA256Final`: the context after the call and the digest written. -/
def internalSHA256Final (context : SHA256CTX) : SHA256CTX × List Nat :=
  let context := internalSHA256Pad context
  let digest := be32enc_vect context.state SHA256_DIGEST_LENGTH
  (zeroizeSHA256CTX context, digest)

/-- `SHA256_(input, length, digest)`; `context` is the content of the local context
record before `internalSHA256Init` runs. -/
def SHA256_ (context : SHA256CTX) (input : List Nat) : List Nat :=
  let context := internalSHA256Init context
  let context := internalSHA256Update context input
  (internalSHA256Final context).2

/-- The two-argument `sha256_hash(first, second)` of `hash.cpp`. -/
def sha256_hash_pair (context : SHA256CTX) (first second : List Nat) : List Nat :=
  let context := internalSHA256Init context
  let context := internalSHA256Update context first
  let context := internalSHA256Update context second
  (internalSHA256Final context).2

/-- The one-argument `sha256_hash(data)` of `hash.cpp`. -/
def sha256_hash (context : SHA256CTX) (data : List Nat) : List Nat :=
  SHA256_ context data

/-! ## Specification-side notions for SHA-256 -/

/-- The consecutive complete 64-byte blocks of `m`. -/
def blocks64 (m : List Nat) : List (List Nat) :=
  (List.range (m.length / 64)).map fun i => (m.drop (64 * i)).take 64

/-- The initial state words set by `internalSHA256Init`. -/
def initialState : List Nat := (internalSHA256Init ⟨[], [], []⟩).state

/-- Folding the compression function over the complete blocks of `m`. -/
def compress (state m : List Nat) : List Nat :=
  (blocks64 m).foldl internalSHA256Transform state

/-- The four bytes of the big-endian representation of a 32-bit word. -/
def bigEndian32 (w : Nat) : List Nat :=
  [w / 2 ^ 24 % 256, w / 2 ^ 16 % 256, w / 2 ^ 8 % 256, w % 256]

/-- The big-endian serialisation of a list of 32-bit words. -/
def serialize32 (words : List Nat) : List Nat :=
  words.flatMap bigEndian32

/-- The eight bytes of the big-endian representation of a 64-bit number. -/
def be64 (n : Nat) : List Nat :=
  [n / 2 ^ 56 % 256, n / 2 ^ 48 % 256, n / 2 ^ 40 % 256, n / 2 ^ 32 % 256,
   n / 2 ^ 24 % 256, n / 2 ^ 16 % 256, n / 2 ^ 8 % 256, n % 256]

/-- The padded message of the specification: `m ∥ 0x80 ∥ 0x00^k ∥ be64(8·|m|)`. -/
def paddedMessage (m : List Nat) (k : Nat) : List Nat :=
  m ++ [0x80] ++ List.replicate k 0 ++ be64 (8 * m.length)

/-! ## Notions used to state the streaming invariant -/

/-- The buffer occupancy `r = (count[1] >> 3) & 0x3f` read by `internalSHA256Update`
and `internalSHA256Pad`. -/
def occupancy (c : SHA256CTX) : Nat := (c.count.getD 1 0 >>> 3) &&& 0x3f

/-- The bytes waiting in the buffer followed by the new input. -/
def pending (c : SHA256CTX) (input : List Nat) : List Nat :=
  c.buf.take (occupancy c) ++ input

/-- The 64-bit value of the counter, `count[0]` being the high word. -/
def bitCount (c : SHA256CTX) : Nat := c.count.getD 0 0 * 2 ^ 32 + c.count.getD 1 0

/-- The context `c` has absorbed the message `M`: its state is the fold of the
compression function over the complete blocks of `M`, its counter holds `8 * |M|`
modulo `2 ^ 64`, and its buffer starts with the incomplete tail of `M`. -/
def Absorbed (c : SHA256CTX) (M : List Nat) : Prop :=
  c.state = compress initialState M ∧
  c.count = [8 * M.length / 2 ^ 32 % 2 ^ 32, 8 * M.length % 2 ^ 32] ∧
  c.buf.take (M.length % 64) = M.drop (64 * (M.length / 64))

/-- Everything a context has been fed once `internalSHA256Pad` has run on a context
that had absorbed `M`: `M`, then `plen` bytes of `PAD`, then the eight bytes of the
two count words. -/
def finalInput (M : List Nat) : List Nat :=
  M ++ PAD.take (if M.length % 64 < 56 then 56 - M.length % 64 else 120 - M.length % 64)
    ++ be32enc_vect [8 * M.length / 2 ^ 32 % 2 ^ 32, 8 * M.length % 2 ^ 32] 8

/-! ## `hmac_sha512.c` -/

/-- Sizes declared in `sha512.h` and `hmac_sha512.h`. -/
def SHA512_BLOCK_LENGTH : Nat := 128

def SHA512_DIGEST_LENGTH : Nat := 64

def HMACSHA512_DIGEST_LENGTH : Nat := 64

/-- The SHA-512 engine of `sha512.c`, which is not part of the sources: its three
operations are parameters of everything in `hmac_sha512.c`.  `σ` is the type of the
record `SHA512CTX`; `internalSHA512Final` returns the record it leaves and the digest it
writes. -/
structure SHA512Engine (σ : Type) where
  internalSHA512Init : σ → σ
  internalSHA512Update : σ → List Nat → σ
  internalSHA512Final : σ → σ × List Nat

/-- The record `HMACSHA512CTX` of `hmac_sha512.h`. -/
structure HMACSHA512CTX (σ : Type) where
  ictx : σ
  octx : σ

/-- Modelled from the spec: `fill` is not part of the sources; the spec describes the
pad as "a block-length buffer of `0x36` bytes".  The content of an `n`-byte buffer after
`fill(buf, n, byte)`. -/
def fill (n byte : Nat) : List Nat := List.replicate n byte

/-- Modelled from the spec: `zeroize` of `zeroize.h` is not part of the sources; the
spec describes it as "overwrites a buffer with zero bytes".  The content of an `n`-byte
buffer after `zeroize(buf, n)`. -/
def zeroize (n : Nat) : List Nat := List.replicate n 0

/-- The loop `for (i = 0; i < key_length; i++) pad[i] ^= key[i];`. -/
def xorKey (pad key : List Nat) (key_length : Nat) : List Nat :=
  (List.range key_length).foldl (fun pad i => pad.set i (pad.getD i 0 ^^^ key.getD i 0)) pad

/-- What `HMACSHA512Init` leaves behind: the context, and the content of its two local
buffers `pad` and `key_hash` when it returns. -/
structure HMACSHA512InitFrame (σ : Type) where
  context : HMACSHA512CTX σ
  pad : List Nat
  key_hash : List Nat

/-- `HMACSHA512Init(context, key, key_length)` with `key_length = key.length`.  The
initial content of the locals `pad` and `key_hash` is never read. -/
def HMACSHA512Init {σ : Type} (E : SHA512Engine σ) (context : HMACSHA512CTX σ)
    (key : List Nat) : HMACSHA512InitFrame σ :=
  let (ictx, key, key_length) :=
    if key.length > SHA512_BLOCK_LENGTH then
      let ictx := E.internalSHA512Init context.ictx
      let ictx := E.internalSHA512Update ictx key
      let (ictx, key_hash) := E.internalSHA512Final ictx
      (ictx, key_hash, SHA512_DIGEST_LENGTH)
    else (context.ictx, key, key.length)
  let ictx := E.internalSHA512Init ictx
  let pad := fill SHA512_BLOCK_LENGTH 0x36
  let pad := xorKey pad key key_length
  let ictx := E.internalSHA512Update ictx pad
  let octx := E.internalSHA512Init context.octx
  let pad := fill SHA512_BLOCK_LENGTH 0x5c
  let pad := xorKey pad key key_length
  let octx := E.internalSHA512Update octx pad
  let key_hash := zeroize SHA512_DIGEST_LENGTH
  { context := { ictx := ictx, octx := octx }, pad := pad, key_hash := key_hash }

/-- `HMACSHA512Update`. -/
def HMACSHA512Update {σ : Type} (E : SHA512Engine σ) (context : HMACSHA512CTX σ)
    (input : List Nat) : HMACSHA512CTX σ :=
  { context with ictx := E.internalSHA512Update context.ictx input }

/-- `HMACSHA512Final`: the context after the call and the digest written.  The local
`hash` receives the inner digest, and its `HMACSHA512_DIGEST_LENGTH` bytes are fed to the
outer context. -/
def HMACSHA512Final {σ : Type} (E : SHA512Engine σ) (context : HMACSHA512CTX σ) :
    HMACSHA512CTX σ × List Nat :=
  let (ictx, hash) := E.internalSHA512Final context.ictx
  let octx := E.internalSHA512Update context.octx (hash.take HMACSHA512_DIGEST_LENGTH)
  let (octx, digest) := E.internalSHA512Final octx
  ({ ictx := ictx, octx := octx }, digest)

/-- `HMACSHA512(input, length, key, key_length, digest)`; `context` is the content of
the local context record before `HMACSHA512Init` runs. -/
def HMACSHA512 {σ : Type} (E : SHA512Engine σ) (context : HMACSHA512CTX σ)
    (input key : List Nat) : List Nat :=
  let context := (HMACSHA512Init E context key).context
  let context := HMACSHA512Update E context input
  (HMACSHA512Final E context).2

/-- `hmac_sha512_hash(data, key)` of `hash.cpp`. -/
def hmac_sha512_hash {σ : Type} (E : SHA512Engine σ) (context : HMACSHA512CTX σ)
    (data key : List Nat) : List Nat :=
  HMACSHA512 E context data key

/-! ## Specification-side notions for HMAC -/

/-- The contract of a SHA-512 engine computing the hash function `H`: the digest written
by `Final` after `Init` and any sequence of `Update` calls is `H` of the concatenation
of what was fed, and digests have `SHA512_DIGEST_LENGTH` bytes. -/
structure StreamingContract {σ : Type} (E : SHA512Engine σ) (H : List Nat → List Nat) :
    Prop where
  streaming : ∀ (c : σ) (chunks : List (List Nat)),
    (E.internalSHA512Final (chunks.foldl E.internalSHA512Update (E.internalSHA512Init c))).2
      = H chunks.flatten
  digest_length : ∀ m : List Nat, (H m).length = SHA512_DIGEST_LENGTH

/-- The inner pad: 128 bytes of `0x36`. -/
def ipad : List Nat := List.replicate 128 0x36

/-- The outer pad: 128 bytes of `0x5c`. -/
def opad : List Nat := List.replicate 128 0x5c

/-- Bytewise exclusive or. -/
def xorBytes (a b : List Nat) : List Nat := List.zipWith (fun x y => x ^^^ y) a b

/-- Extension with zero bytes to 128 bytes. -/
def zeroExtend (k : List Nat) : List Nat := k ++ List.replicate (128 - k.length) 0

/-- The block-sized key `K'`: `K` zero-extended when `|K| ≤ 128`, `H(K)` zero-extended
otherwise. -/
def blockKey (H : List Nat → List Nat) (K : List Nat) : List Nat :=
  if K.length ≤ 128 then zeroExtend K else zeroExtend (H K)

/-- The construction `H((K' ⊕ opad) ∥ H((K' ⊕ ipad) ∥ m))`. -/
def hmacSpec (H : List Nat → List Nat) (K m : List Nat) : List Nat :=
  H (xorBytes (blockKey H K) opad ++ H (xorBytes (blockKey H K) ipad ++ m))

/-- An engine that keeps the bytes it is fed and whose digest is their first 64 bytes,
zero-extended: the simplest engine meeting `StreamingContract`. -/
def prefixHash (m : List Nat) : List Nat := (m ++ List.replicate 64 0).take 64

def prefixEngine : SHA512Engine (List Nat) where
  internalSHA512Init := fun _ => []
  internalSHA512Update := fun c input => c ++ input
  internalSHA512Final := fun c => ([], prefixHash c)

/-! ## `hash.cpp`: the key-derivation wrappers -/

/-- The C++ exceptions thrown by the wrappers of `hash.cpp`, with their message. -/
inductive HashException where
  | length_error (what : String)
  | runtime_error (what : String)
  | bad_alloc
  deriving DecidableEq, Repr

/-- The three values of `errno.h` named in `handle_script_result`.  They come from the
platform's headers and are parameters here; a `switch` needs them pairwise distinct. -/
structure ErrnoCodes where
  EFBIG : Int
  EINVAL : Int
  ENOMEM : Int

/-- `handle_script_result(result)`, reading the global `errno`. -/
def handle_script_result (codes : ErrnoCodes) (errno : Int) (result : Int) :
    Except HashException Unit :=
  if result = 0 then
    Except.ok ()
  else if errno = codes.EFBIG then
    Except.error (HashException.length_error "scrypt parameter too large")
  else if errno = codes.EINVAL then
    Except.error (HashException.runtime_error "scrypt invalid argument")
  else if errno = codes.ENOMEM then
    Except.error (HashException.length_error "scrypt address space")
  else
    Except.error HashException.bad_alloc

/-- What one call of `crypto_scrypt` (`crypto_scrypt.h`, not part of the sources) does
as far as the wrapper sees it: the `int` it returns, the content it leaves in the output
buffer, and the value of `errno` after it. -/
structure ScryptCall where
  result : Int
  output : List Nat
  errno : Int

/-- `scrypt(data, salt, N, p, r, length)`; `crypto_scrypt` is a parameter and receives
`N, r, p` in the order of the call in the source, with the zero-initialised output
vector. -/
def scrypt (codes : ErrnoCodes)
    (crypto_scrypt : List Nat → List Nat → Nat → Nat → Nat → List Nat → ScryptCall)
    (data salt : List Nat) (N p r length : Nat) : Except HashException (List Nat) :=
  let output := List.replicate length 0
  let call := crypto_scrypt data salt N r p output
  match handle_script_result codes call.errno call.result with
  | Except.error e => Except.error e
  | Except.ok _ => Except.ok call.output

/-- `pkcs5_pbkdf2_hmac_sha512(passphrase, salt, iterations)`; `pkcs5_pbkdf2`
(`pkcs5_pbkdf2.h`, not part of the sources) is a parameter that receives the passphrase,
the salt, the key buffer with its length, and the iteration count, and returns its `int`
result with the content it leaves in the key buffer.  `hash` is the content of the local
`long_hash` before the call. -/
def pkcs5_pbkdf2_hmac_sha512
    (pkcs5_pbkdf2 : List Nat → List Nat → List Nat → Nat → Nat → Int × List Nat)
    (hash : List Nat) (passphrase salt : List Nat) (iterations : Nat) :
    Except HashException (List Nat) :=
  let (result, hash) := pkcs5_pbkdf2 passphrase salt hash hash.length iterations
  if result ≠ 0 then
    Except.error HashException.bad_alloc
  else
    Except.ok hash

/-- `pbkdf2_hmac_sha256(passphrase, salt, iterations, length)`; `pbkdf2_sha256`
(`pbkdf2_sha256.h`, not part of the sources) is a parameter that receives the passphrase,
the salt, the iteration count and the zero-initialised output vector with its length, and
returns whatever it returns with the content it leaves in the vector; the wrapper does not
look at what it returns. -/
def pbkdf2_hmac_sha256
    (pbkdf2_sha256 : List Nat → List Nat → Nat → List Nat → Nat → Int × List Nat)
    (passphrase salt : List Nat) (iterations length : Nat) : Except HashException (List Nat) :=
  let output := List.replicate length 0
  let output := (pbkdf2_sha256 passphrase salt iterations output length).2
  Except.ok output

/-- The failure categories of the specification. -/
inductive ErrorCategory where
  | invalid_parameter
  | resource_limit
  | allocation_failure
  deriving DecidableEq, Repr

/-- The category of each exception: `runtime_error` is the invalid-parameter error,
`length_error` the resource-limit error, `bad_alloc` the allocation-failure error. -/
def category : HashException → ErrorCategory
  | HashException.runtime_error _ => ErrorCategory.invalid_parameter
  | HashException.length_error _ => ErrorCategory.resource_limit
  | HashException.bad_alloc => ErrorCategory.allocation_failure

/-- The outcome the specification gives for the scrypt wrapper, from what the call of
`crypto_scrypt` returned and the value of `errno`. -/
def scryptOutcome (codes : ErrnoCodes) (call : ScryptCall) :
    Except ErrorCategory (List Nat) :=
  if call.result = 0 then Except.ok call.output
  else if call.errno = codes.EINVAL then Except.error ErrorCategory.invalid_parameter
  else if call.errno = codes.EFBIG ∨ call.errno = codes.ENOMEM then
    Except.error ErrorCategory.resource_limit
  else Except.error ErrorCategory.allocation_failure

/-- The values of the three codes on Linux. -/
def linuxCodes : ErrnoCodes := { EFBIG := 27, EINVAL := 22, ENOMEM := 12 }

/-! ## The SHA-256 compression function as FIPS 180-4 states it -/

/-- The bitwise complement of a 32-bit word. -/
def not32 (x : Nat) : Nat := 2 ^ 32 - 1 - x

/-- `Ch(x, y, z) = (x ∧ y) ⊕ (¬x ∧ z)`. -/
def fipsCh (x y z : Nat) : Nat := (x &&& y) ^^^ (not32 x &&& z)

/-- `Maj(x, y, z) = (x ∧ y) ⊕ (x ∧ z) ⊕ (y ∧ z)`. -/
def fipsMaj (x y z : Nat) : Nat := (x &&& y) ^^^ (x &&& z) ^^^ (y &&& z)

/-- `ROTRⁿ(x) = (x >> n) ∨ (x << 32 - n)` on 32-bit words. -/
def fipsROTR (n x : Nat) : Nat := ((x >>> n) ||| (x <<< (32 - n))) % 2 ^ 32

/-- `SHRⁿ(x) = x >> n`. -/
def fipsSHR (n x : Nat) : Nat := x >>> n

/-- `Σ₀(x) = ROTR²(x) ⊕ ROTR¹³(x) ⊕ ROTR²²(x)`. -/
def bigSigma0 (x : Nat) : Nat := fipsROTR 2 x ^^^ fipsROTR 13 x ^^^ fipsROTR 22 x

/-- `Σ₁(x) = ROTR⁶(x) ⊕ ROTR¹¹(x) ⊕ ROTR²⁵(x)`. -/
def bigSigma1 (x : Nat) : Nat := fipsROTR 6 x ^^^ fipsROTR 11 x ^^^ fipsROTR 25 x

/-- `σ₀(x) = ROTR⁷(x) ⊕ ROTR¹⁸(x) ⊕ SHR³(x)`. -/
def smallSigma0 (x : Nat) : Nat := fipsROTR 7 x ^^^ fipsROTR 18 x ^^^ fipsSHR 3 x

/-- `σ₁(x) = ROTR¹⁷(x) ⊕ ROTR¹⁹(x) ⊕ SHR¹⁰(x)`. -/
def smallSigma1 (x : Nat) : Nat := fipsROTR 17 x ^^^ fipsROTR 19 x ^^^ fipsSHR 10 x

/-- Binary search for the integer cube root: `r` is raised by `2 ^ b` for each bit `b`
from the highest down, as long as its cube stays at most `n`. -/
def icbrtAux (n : Nat) : Nat → Nat → Nat
  | 0, r => r
  | b + 1, r => icbrtAux n b (if (r + 2 ^ b) ^ 3 ≤ n then r + 2 ^ b else r)

/-- The integer cube root of a number below `2 ^ 120`. -/
def icbrt (n : Nat) : Nat := icbrtAux n 40 0

/-- Primality by trial division. -/
def isPrime (n : Nat) : Bool :=
  decide (2 ≤ n) && (List.range n).all fun d => decide (d < 2) || decide (n % d ≠ 0)

/-- The first sixty-four prime numbers, `2, 3, 5, …, 311`. -/
def firstPrimes : List Nat := (List.range 312).filter isPrime

/-- The constants `K₀ … K₆₃` of FIPS 180-4: the first thirty-two bits of the fractional
parts of the cube roots of the first sixty-four prime numbers. -/
def fipsK : List Nat := firstPrimes.map fun p => icbrt (p * 2 ^ 96) % 2 ^ 32

/-- The sixteen big-endian words `M₀ … M₁₅` of a 64-byte block. -/
def fipsM (block : List Nat) : List Nat :=
  (List.range 16).map fun t =>
    block.getD (4 * t) 0 * 2 ^ 24 + block.getD (4 * t + 1) 0 * 2 ^ 16
      + block.getD (4 * t + 2) 0 * 2 ^ 8 + block.getD (4 * t + 3) 0

/-- The message schedule `W₀ … W₆₃`: `Wₜ = Mₜ` for `t < 16` and
`Wₜ = σ₁(Wₜ₋₂) + Wₜ₋₇ + σ₀(Wₜ₋₁₅) + Wₜ₋₁₆` modulo `2 ^ 32` for `16 ≤ t ≤ 63`. -/
def fipsSchedule (block : List Nat) : List Nat :=
  (List.range 48).foldl
    (fun W j =>
      W ++ [(smallSigma1 (W.getD (j + 16 - 2) 0) + W.getD (j + 16 - 7) 0
        + smallSigma0 (W.getD (j + 16 - 15) 0) + W.getD (j + 16 - 16) 0) % 2 ^ 32])
    (fipsM block)

/-- One step of the textbook loop on the working variables `a, b, c, d, e, f, g, h`:
`T₁ = h + Σ₁(e) + Ch(e, f, g) + Kₜ + Wₜ`, `T₂ = Σ₀(a) + Maj(a, b, c)`, then
`h = g, g = f, f = e, e = d + T₁, d = c, c = b, b = a, a = T₁ + T₂`. -/
def fipsRound (v : List Nat) (k w : Nat) : List Nat :=
  match v with
  | [a, b, c, d, e, f, g, h] =>
    [((h + bigSigma1 e + fipsCh e f g + k + w) % 2 ^ 32
        + (bigSigma0 a + fipsMaj a b c) % 2 ^ 32) % 2 ^ 32,
     a, b, c, (d + (h + bigSigma1 e + fipsCh e f g + k + w) % 2 ^ 32) % 2 ^ 32, e, f, g]
  | _ => v

/-- The compression function of FIPS 180-4, section 6.2.2: the working variables start
from the hash value `H`, go through the 64 steps, and are added to `H` word by word. -/
def fipsCompress (H block : List Nat) : List Nat :=
  List.zipWith (fun x y => (x + y) % 2 ^ 32)
    ((List.range 64).foldl
      (fun v t => fipsRound v (fipsK.getD t 0) ((fipsSchedule block).getD t 0)) H)
    H

/-- The working variables held by the register file `S` before round `t`: `a` is
`S[(64 - t) % 8]`, …, `h` is `S[(71 - t) % 8]`. -/
def workingVariables (S : List Nat) (t : Nat) : List Nat :=
  [S.getD ((64 - t) % 8) 0, S.getD ((65 - t) % 8) 0, S.getD ((66 - t) % 8) 0,
   S.getD ((67 - t) % 8) 0, S.getD ((68 - t) % 8) 0, S.getD ((69 - t) % 8) 0,
   S.getD ((70 - t) % 8) 0, S.getD ((71 - t) % 8) 0]

/-! ## `sha256.c` with its buffer accesses recorded -/

/-- The accesses `internalSHA256Update` makes to `context->buf` and to its input:
`copy dst src n` is `memcpy(&context->buf[dst], input + src, n)`, which writes
`buf[dst .. dst + n)` and reads `input[src .. src + n)`; `transformBuf` is
`internalSHA256Transform(context->state, context->buf)`, which reads `buf[0 .. 64)`;
`transformInput src` is `internalSHA256Transform(context->state, input + src)`, which
reads `input[src .. src + 64)`. -/
inductive Access where
  | copy (dst src n : Nat)
  | transformBuf
  | transformInput (src : Nat)
  deriving DecidableEq, Repr

/-- An access stays inside the 64 bytes of `buf` and the `L` bytes of the input. -/
def Access.inBounds (L : Nat) : Access → Bool
  | Access.copy dst src n => decide (dst + n ≤ SHA256_BLOCK_LENGTH) && decide (src + n ≤ L)
  | Access.transformBuf => decide (64 ≤ SHA256_BLOCK_LENGTH)
  | Access.transformInput src => decide (src + 64 ≤ L)

/-- The access is a call of the compression function. -/
def Access.isTransform : Access → Bool
  | Access.copy _ _ _ => false
  | Access.transformBuf => true
  | Access.transformInput _ => true

/-- The loop of `internalSHA256Update` on the pointer `input + off` and the remaining
`length`, with the accesses recorded. -/
def transformLoopTraced :
    Nat → List Nat → List Nat → Nat → Nat → List Access → List Nat × Nat × Nat × List Access
  | 0, state, _, off, length, trace => (state, off, length, trace)
  | fuel + 1, state, input, off, length, trace =>
    if length ≥ 64 then
      transformLoopTraced fuel (internalSHA256Transform state (input.drop off)) input
        (off + 64) (length - 64) (trace ++ [Access.transformInput off])
    else (state, off, length, trace)

/-- `internalSHA256Update` on the pointer `input + off` and the count `length`, as the
source moves them, with the accesses recorded in order. -/
def internalSHA256UpdateTraced (context : SHA256CTX) (input : List Nat) :
    SHA256CTX × List Access :=
  let length := input.length
  let r := (context.count.getD 1 0 >>> 3) &&& 0x3f
  let bitlen1 := u32 (u32 length <<< 3)
  let bitlen0 := u32 (length >>> 29)
  let count1 := u32 (context.count.getD 1 0 + bitlen1)
  let count0 := if count1 < bitlen1 then u32 (context.count.getD 0 0 + 1)
    else context.count.getD 0 0
  let count0 := u32 (count0 + bitlen0)
  let context := { context with count := [count0, count1] }
  if length < 64 - r then
    ({ context with buf := memcpy context.buf r input length }, [Access.copy r 0 length])
  else
    let buf := memcpy context.buf r input (64 - r)
    let state := internalSHA256Transform context.state buf
    let off := 64 - r
    let length := length - (64 - r)
    let (state, off, length, trace) :=
      transformLoopTraced length state input off length
        [Access.copy r 0 (64 - r), Access.transformBuf]
    ({ context with state := state, buf := memcpy buf 0 (input.drop off) length },
      trace ++ [Access.copy 0 off length])

/-- `internalSHA256Pad` with the accesses of its two updates: the first reads the table
`PAD`, the second the local `len`. -/
def internalSHA256PadTraced (context : SHA256CTX) : SHA256CTX × List Access × List Access :=
  let len := be32enc_vect context.count 8
  let r := (context.count.getD 1 0 >>> 3) &&& 0x3f
  let plen := if r < 56 then 56 - r else 120 - r
  let (context, padAccesses) := internalSHA256UpdateTraced context (PAD.take plen)
  let (context, lenAccesses) := internalSHA256UpdateTraced context len
  (context, padAccesses, lenAccesses)

/-- The number `plen` of bytes of `PAD` that `internalSHA256Pad` feeds. -/
def padLength (context : SHA256CTX) : Nat :=
  if (context.count.getD 1 0 >>> 3) &&& 0x3f < 56 then
    56 - ((context.count.getD 1 0 >>> 3) &&& 0x3f)
  else 120 - ((context.count.getD 1 0 >>> 3) &&& 0x3f)

/-! ## Lemmas on blocks -/

theorem be32dec_drop_take (b : List Nat) (i : Nat) (hi : i < 16) :
    be32dec ((b.take 64).drop (i * 4)) = be32dec (b.drop (i * 4)) := by
  have h0 : i * 4 + 0 < 64 := by omega
  have h1 : i * 4 + 1 < 64 := by omega
  have h2 : i * 4 + 2 < 64 := by omega
  have h3 : i * 4 + 3 < 64 := by omega
  simp only [be32dec, List.getD_eq_getElem?_getD, List.getElem?_drop, List.getElem?_take, h0, h1,
    h2, h3, if_true]

theorem be32dec_vect_take (b : List Nat) :
    be32dec_vect (b.take 64) SHA256_BLOCK_LENGTH = be32dec_vect b SHA256_BLOCK_LENGTH := by
  unfold be32dec_vect
  apply List.map_congr_left
  intro i hi
  have : i < 16 := by simpa [SHA256_BLOCK_LENGTH] using hi
  exact be32dec_drop_take b i this

theorem transform_take (s b : List Nat) :
    internalSHA256Transform s (b.take 64) = internalSHA256Transform s b := by
  simp only [internalSHA256Transform, schedule, be32dec_vect_take]

theorem blocks64_short (m : List Nat) (h : m.length < 64) : blocks64 m = [] := by
  simp [blocks64, Nat.div_eq_of_lt h]

theorem blocks64_cons (m : List Nat) (h : 64 ≤ m.length) :
    blocks64 m = m.take 64 :: blocks64 (m.drop 64) := by
  have hq : m.length / 64 = (m.length - 64) / 64 + 1 := by omega
  simp only [blocks64, hq, List.length_drop, List.range_succ_eq_map, List.map_cons,
    List.map_map, Nat.mul_zero, List.drop_zero]
  congr 1
  apply List.map_congr_left
  intro i _
  simp only [Function.comp, List.drop_drop]
  congr 2
  omega

theorem blocks64_append_aux (b : List Nat) (n : Nat) :
    ∀ a : List Nat, a.length = n → a.length % 64 = 0 →
      blocks64 (a ++ b) = blocks64 a ++ blocks64 b := by
  induction n using Nat.strong_induction_on with
  | _ n ih =>
    intro a hn h
    by_cases h0 : a.length = 0
    · have : a = [] := List.length_eq_zero.mp h0
      subst this
      simp [blocks64]
    · have h64 : 64 ≤ a.length := by omega
      have hab : 64 ≤ (a ++ b).length := by simp; omega
      rw [blocks64_cons (a ++ b) hab, blocks64_cons a h64]
      have ht : (a ++ b).take 64 = a.take 64 := by
        rw [List.take_append_of_le_length h64]
      have hd : (a ++ b).drop 64 = a.drop 64 ++ b := by
        rw [List.drop_append_of_le_length h64]
      rw [ht, hd]
      have := ih (a.drop 64).length (by simp; omega) (a.drop 64) rfl (by simp; omega)
      rw [this]
      rfl

theorem blocks64_append (a b : List Nat) (h : a.length % 64 = 0) :
    blocks64 (a ++ b) = blocks64 a ++ blocks64 b :=
  blocks64_append_aux b a.length a rfl h

theorem flatten_blocks64_aux (n : Nat) :
    ∀ m : List Nat, m.length = n → (blocks64 m).flatten = m.take (64 * (m.length / 64)) := by
  induction n using Nat.strong_induction_on with
  | _ n ih =>
    intro m hn
    by_cases h64 : 64 ≤ m.length
    · rw [blocks64_cons m h64, List.flatten_cons,
        ih (m.drop 64).length (by simp; omega) (m.drop 64) rfl]
      have hq : 64 * (m.length / 64) = 64 + 64 * ((m.drop 64).length / 64) := by
        simp only [List.length_drop]; omega
      rw [hq, List.take_add]
    · have hlt : m.length < 64 := by omega
      have hq : m.length / 64 = 0 := by omega
      simp [blocks64_short m hlt, hq]

/-- The blocks of a message whose length is a multiple of 64 make up the message. -/
theorem flatten_blocks64 (m : List Nat) (h : m.length % 64 = 0) :
    (blocks64 m).flatten = m := by
  rw [flatten_blocks64_aux m.length m rfl]
  apply List.take_of_length_le
  omega

theorem compress_short (s m : List Nat) (h : m.length < 64) : compress s m = s := by
  simp [compress, blocks64_short m h]

theorem compress_cons (s m : List Nat) (h : 64 ≤ m.length) :
    compress s m = compress (internalSHA256Transform s m) (m.drop 64) := by
  simp [compress, blocks64_cons m h, transform_take]

theorem compress_append (s a b : List Nat) (h : a.length % 64 = 0) :
    compress s (a ++ b) = compress (compress s a) b := by
  simp [compress, blocks64_append a b h]

/-- Dropping an incomplete tail does not change the fold over complete blocks. -/
theorem compress_take (s m : List Nat) :
    compress s (m.take (64 * (m.length / 64))) = compress s m := by
  have hlen : (m.take (64 * (m.length / 64))).length = 64 * (m.length / 64) := by
    simp; omega
  conv_rhs => rw [← List.take_append_drop (64 * (m.length / 64)) m]
  rw [compress_append _ _ _ (by rw [hlen]; omega)]
  rw [compress_short _ (m.drop (64 * (m.length / 64))) (by simp; omega)]

/-- The loop of `internalSHA256Update` consumes every complete block, given any bound
of at least `input.length / 64` iterations, and leaves the incomplete tail. -/
theorem transformLoop_eq (fuel : Nat) (s input : List Nat) (h : input.length / 64 ≤ fuel) :
    transformLoop fuel s input = (compress s input, input.drop (64 * (input.length / 64))) := by
  induction fuel generalizing s input with
  | zero =>
    have hlt : input.length < 64 := by omega
    have hq : input.length / 64 = 0 := by omega
    simp [transformLoop, compress_short s input hlt, hq]
  | succ n ih =>
    unfold transformLoop
    by_cases hge : input.length ≥ 64
    · rw [if_pos hge, ih _ _ (by simp; omega), compress_cons s input hge]
      have hq : input.length / 64 = (input.length - 64) / 64 + 1 := by omega
      simp only [List.length_drop, List.drop_drop, hq]
      congr 2
      omega
    · have hlt : input.length < 64 := by omega
      have hq : input.length / 64 = 0 := by omega
      rw [if_neg hge]
      simp [compress_short s input hlt, hq]

/-! ## The effect of one `internalSHA256Update` -/

theorem occupancy_lt (c : SHA256CTX) : occupancy c < 64 := by
  have : occupancy c ≤ 0x3f := Nat.and_le_right
  omega

theorem length_pending (c : SHA256CTX) (input : List Nat) (hr : occupancy c ≤ c.buf.length) :
    (pending c input).length = occupancy c + input.length := by
  simp [pending, Nat.min_eq_left hr]

/-- The state after an update is the fold of the compression function over the
complete blocks of the pending bytes. -/
theorem update_state (c : SHA256CTX) (input : List Nat) (hr : occupancy c ≤ c.buf.length) :
    (internalSHA256Update c input).state = compress c.state (pending c input) := by
  have hlen := length_pending c input hr
  have hr64 := occupancy_lt c
  have htk : (c.buf.take (occupancy c)).length = occupancy c := by
    simp [Nat.min_eq_left hr]
  unfold internalSHA256Update
  simp only []
  rw [show (c.count.getD 1 0 >>> 3) &&& 0x3f = occupancy c from rfl]
  by_cases hs : input.length < 64 - occupancy c
  · rw [if_pos hs]
    rw [compress_short _ _ (by rw [hlen]; omega)]
  · rw [if_neg hs]
    rw [transformLoop_eq _ _ _ (Nat.div_le_self _ _)]
    simp only []
    have hx64 : 64 ≤ (pending c input).length := by rw [hlen]; omega
    rw [compress_cons _ _ hx64]
    have hb : (memcpy c.buf (occupancy c) input (64 - occupancy c)).take 64
        = (pending c input).take 64 := by
      unfold memcpy pending
      rw [List.take_append_eq_append_take, List.take_append_eq_append_take,
        List.take_append_eq_append_take]
      simp only [htk, List.length_append, List.length_take]
      have h1 : 64 - (occupancy c + min (64 - occupancy c) input.length) = 0 := by omega
      rw [h1]
      simp
    have hd : input.drop (64 - occupancy c) = (pending c input).drop 64 := by
      unfold pending
      rw [List.drop_append_eq_append_drop, htk]
      have : (c.buf.take (occupancy c)).drop 64 = [] := by
        apply List.drop_eq_nil_of_le; omega
      rw [this]; rfl
    rw [← transform_take c.state (memcpy _ _ _ _), hb, transform_take, hd]

/-- The buffer after an update starts with the incomplete tail of the pending bytes. -/
theorem update_buf (c : SHA256CTX) (input : List Nat) (hr : occupancy c ≤ c.buf.length) :
    (internalSHA256Update c input).buf.take ((pending c input).length % 64)
      = (pending c input).drop (64 * ((pending c input).length / 64)) := by
  have hlen := length_pending c input hr
  have hr64 := occupancy_lt c
  have htk : (c.buf.take (occupancy c)).length = occupancy c := by
    simp [Nat.min_eq_left hr]
  unfold internalSHA256Update
  simp only []
  rw [show (c.count.getD 1 0 >>> 3) &&& 0x3f = occupancy c from rfl]
  by_cases hs : input.length < 64 - occupancy c
  · rw [if_pos hs]
    have hq : (pending c input).length / 64 = 0 := by rw [hlen]; omega
    have hm : (pending c input).length % 64 = (pending c input).length := by rw [hlen]; omega
    rw [hq, hm]
    simp only [memcpy, List.take_length, Nat.mul_zero, List.drop_zero]
    rw [show c.buf.take (occupancy c) ++ input = pending c input from rfl]
    rw [List.take_append_of_le_length (Nat.le_refl _), List.take_length]
  · rw [if_neg hs]
    rw [transformLoop_eq _ _ _ (Nat.div_le_self _ _)]
    simp only []
    have hd : input.drop (64 - occupancy c) = (pending c input).drop 64 := by
      unfold pending
      rw [List.drop_append_eq_append_drop, htk]
      have : (c.buf.take (occupancy c)).drop 64 = [] := by
        apply List.drop_eq_nil_of_le; omega
      rw [this]; rfl
    rw [hd]
    have hq : (pending c input).length / 64 = ((pending c input).length - 64) / 64 + 1 := by
      rw [hlen]; omega
    have ht : ((pending c input).drop 64).drop (64 * (((pending c input).drop 64).length / 64))
        = (pending c input).drop (64 * ((pending c input).length / 64)) := by
      rw [List.drop_drop, List.length_drop, hq]
      congr 1
      omega
    rw [ht]
    simp only [memcpy, List.take_zero, List.nil_append, List.take_length, Nat.zero_add]
    have hl : ((pending c input).drop (64 * ((pending c input).length / 64))).length
        = (pending c input).length % 64 := by
      rw [List.length_drop]; omega
    rw [← hl, List.take_append_of_le_length (Nat.le_refl _), List.take_length]

/-! ## The bit counter -/

theorem and_0x3f (x : Nat) : x &&& 0x3f = x % 64 :=
  Nat.and_pow_two_sub_one_eq_mod x 6

theorem and_0xff (x : Nat) : x &&& 0xff = x % 256 :=
  Nat.and_pow_two_sub_one_eq_mod x 8

theorem occupancy_eq (c : SHA256CTX) : occupancy c = c.count.getD 1 0 / 8 % 64 := by
  simp only [occupancy, and_0x3f, Nat.shiftRight_eq_div_pow]

/-- The two count words written by `internalSHA256Update`. -/
theorem update_count (c : SHA256CTX) (input : List Nat) :
    (internalSHA256Update c input).count =
      [u32 ((if u32 (c.count.getD 1 0 + u32 (u32 input.length <<< 3)) < u32 (u32 input.length <<< 3)
          then u32 (c.count.getD 0 0 + 1) else c.count.getD 0 0) + u32 (input.length >>> 29)),
       u32 (c.count.getD 1 0 + u32 (u32 input.length <<< 3))] := by
  unfold internalSHA256Update
  simp only []
  split <;> rfl

/-- The counter arithmetic of `internalSHA256Update` when the low word is below `2 ^ 32`. -/
theorem counter_arith (c0 c1 L : Nat) (h1 : c1 < 2 ^ 32) :
    u32 ((if u32 (c1 + u32 (u32 L <<< 3)) < u32 (u32 L <<< 3) then u32 (c0 + 1) else c0)
        + u32 (L >>> 29)) * 2 ^ 32 + u32 (c1 + u32 (u32 L <<< 3))
      = (c0 * 2 ^ 32 + c1 + 8 * L) % 2 ^ 64 := by
  simp only [u32, Nat.shiftLeft_eq, Nat.shiftRight_eq_div_pow]
  norm_num at h1 ⊢
  split <;> omega

theorem update_occupancy (c : SHA256CTX) (input : List Nat) :
    occupancy (internalSHA256Update c input) = (occupancy c + input.length) % 64 := by
  rw [occupancy_eq, occupancy_eq, update_count]
  simp only [List.getD_cons_succ, List.getD_cons_zero, u32, Nat.shiftLeft_eq]
  norm_num
  omega

/-! ## The streaming invariant -/

theorem absorbed_occupancy {c : SHA256CTX} {M : List Nat} (h : Absorbed c M) :
    occupancy c = M.length % 64 := by
  rw [occupancy_eq, h.2.1]
  simp only [List.getD_cons_succ, List.getD_cons_zero]
  omega

theorem absorbed_occupancy_le {c : SHA256CTX} {M : List Nat} (h : Absorbed c M) :
    occupancy c ≤ c.buf.length := by
  rw [absorbed_occupancy h]
  have := congrArg List.length h.2.2
  simp only [List.length_take, List.length_drop] at this
  omega

theorem absorbed_pending {c : SHA256CTX} {M : List Nat} (h : Absorbed c M) (x : List Nat) :
    pending c x = M.drop (64 * (M.length / 64)) ++ x := by
  unfold pending
  rw [absorbed_occupancy h, h.2.2]

theorem absorbed_init (c : SHA256CTX) : Absorbed (internalSHA256Init c) [] := by
  refine ⟨?_, ?_, ?_⟩
  · rw [compress_short _ _ (by simp)]
    rfl
  · simp [internalSHA256Init]
  · simp

theorem absorbed_update {c : SHA256CTX} {M : List Nat} (h : Absorbed c M) (x : List Nat) :
    Absorbed (internalSHA256Update c x) (M ++ x) := by
  have hle := absorbed_occupancy_le h
  have hp := absorbed_pending h x
  have hplen : (pending c x).length = M.length % 64 + x.length := by
    rw [length_pending c x hle, absorbed_occupancy h]
  have hsplit : M ++ x = M.take (64 * (M.length / 64)) ++ pending c x := by
    rw [hp, ← List.append_assoc, List.take_append_drop]
  have htl : (M.take (64 * (M.length / 64))).length = 64 * (M.length / 64) := by
    simp; omega
  refine ⟨?_, ?_, ?_⟩
  · rw [update_state c x hle, h.1, hsplit, compress_append _ _ _ (by rw [htl]; omega),
      compress_take]
  · rw [update_count, h.2.1]
    simp only [List.getD_cons_succ, List.getD_cons_zero, u32, Nat.shiftLeft_eq,
      Nat.shiftRight_eq_div_pow, List.length_append]
    norm_num
    constructor
    · split <;> omega
    · omega
  · have hb := update_buf c x hle
    have hm : (M ++ x).length % 64 = (pending c x).length % 64 := by
      rw [hplen, List.length_append]; omega
    rw [hm, hb]
    have hq : 64 * ((M ++ x).length / 64)
        = 64 * (M.length / 64) + 64 * ((pending c x).length / 64) := by
      rw [hplen, List.length_append]; omega
    rw [hq]
    conv_rhs => rw [hsplit]
    rw [List.drop_append_eq_append_drop, htl]
    have h1 : (M.take (64 * (M.length / 64))).drop
        (64 * (M.length / 64) + 64 * ((pending c x).length / 64)) = [] := by
      apply List.drop_eq_nil_of_le; rw [htl]; omega
    rw [h1, List.nil_append]
    congr 1
    omega

theorem absorbed_foldl (chunks : List (List Nat)) :
    ∀ (c : SHA256CTX) (M : List Nat), Absorbed c M →
      Absorbed (chunks.foldl internalSHA256Update c) (M ++ chunks.flatten) := by
  induction chunks with
  | nil => intro c M h; simpa using h
  | cons x xs ih =>
    intro c M h
    have := ih _ _ (absorbed_update h x)
    simpa [List.append_assoc] using this

/-! ## Padding and the digest -/

theorem be32enc_vect_two (src : List Nat) :
    be32enc_vect src 8 = be32enc (src.getD 0 0) ++ be32enc (src.getD 1 0) := by
  simp [be32enc_vect, List.range_succ]

theorem length_be32enc (x : Nat) : (be32enc x).length = 4 := rfl

theorem length_PAD : PAD.length = 64 := by simp [PAD]

theorem length_finalInput (M : List Nat) : (finalInput M).length % 64 = 0 := by
  unfold finalInput
  rw [be32enc_vect_two]
  simp only [List.length_append, List.length_take, length_PAD, length_be32enc]
  split <;> omega

theorem absorbed_pad {c : SHA256CTX} {M : List Nat} (h : Absorbed c M) :
    Absorbed (internalSHA256Pad c) (finalInput M) := by
  have hr : (c.count.getD 1 0 >>> 3) &&& 0x3f = M.length % 64 := absorbed_occupancy h
  unfold internalSHA256Pad finalInput
  simp only []
  rw [hr, h.2.1]
  exact absorbed_update (absorbed_update h _) _

/-- The digest written by `internalSHA256Final` for a context that has absorbed `M`. -/
theorem final_digest {c : SHA256CTX} {M : List Nat} (h : Absorbed c M) :
    (internalSHA256Final c).2
      = be32enc_vect (compress initialState (finalInput M)) SHA256_DIGEST_LENGTH := by
  unfold internalSHA256Final
  simp only []
  rw [(absorbed_pad h).1]

/-- The digest of `SHA256_` does not depend on the prior content of the context. -/
theorem SHA256_eq (c : SHA256CTX) (m : List Nat) :
    SHA256_ c m = be32enc_vect (compress initialState (finalInput m)) SHA256_DIGEST_LENGTH := by
  unfold SHA256_
  simp only []
  have h := absorbed_update (absorbed_init c) m
  rw [List.nil_append] at h
  exact final_digest h

/-- **C1.** Streaming equals one-shot: for every list of byte chunks (empty chunks and
chunks not aligned to 64 bytes included) and whatever the context records held before
`internalSHA256Init`, the digest written by `internalSHA256Final` after one
`internalSHA256Update` per chunk, in order, is the digest `SHA256_` computes for the
concatenation of the chunks; and the two-argument `sha256_hash(first, second)` returns
what the one-argument `sha256_hash` returns for `first ++ second`. -/
theorem C1_streaming_eq_oneshot (c c' : SHA256CTX) :
    (∀ chunks : List (List Nat),
      (internalSHA256Final (chunks.foldl internalSHA256Update (internalSHA256Init c))).2
        = SHA256_ c' chunks.flatten) ∧
    (∀ first second : List Nat,
      sha256_hash_pair c first second = sha256_hash c' (first ++ second)) := by
  constructor
  · intro chunks
    have h := absorbed_foldl chunks _ _ (absorbed_init c)
    rw [List.nil_append] at h
    rw [final_digest h, SHA256_eq]
  · intro first second
    have h := absorbed_update (absorbed_update (absorbed_init c) first) second
    rw [List.nil_append] at h
    unfold sha256_hash_pair sha256_hash
    simp only []
    rw [final_digest h, SHA256_eq]

/-! ## Serialisation -/

theorem be32enc_eq (x : Nat) : be32enc x = bigEndian32 x := by
  simp only [be32enc, bigEndian32, and_0xff, Nat.shiftRight_eq_div_pow]

theorem length_be32enc_vect (src : List Nat) (len : Nat) :
    (be32enc_vect src len).length = 4 * (len / 4) := by
  unfold be32enc_vect
  generalize len / 4 = n
  induction n with
  | zero => simp
  | succ n ih =>
    rw [List.range_succ, List.map_append, List.flatten_append, List.length_append, ih]
    simp [length_be32enc]
    omega

theorem length_transform (s b : List Nat) : (internalSHA256Transform s b).length = 8 := by
  simp [internalSHA256Transform]

theorem length_foldl_transform (bs : List (List Nat)) :
    ∀ s : List Nat, s.length = 8 → (bs.foldl internalSHA256Transform s).length = 8 := by
  induction bs with
  | nil => intro s h; simpa using h
  | cons b bs ih => intro s _; exact ih _ (length_transform s b)

theorem length_compress (s m : List Nat) (h : s.length = 8) : (compress s m).length = 8 :=
  length_foldl_transform _ s h

theorem length_initialState : initialState.length = 8 := rfl

theorem be32enc_vect_eq_serialize32 (s : List Nat) (h : s.length = 8) :
    be32enc_vect s SHA256_DIGEST_LENGTH = serialize32 s := by
  match s, h with
  | [a, b, c, d, e, f, g, i], _ =>
    simp [be32enc_vect, SHA256_DIGEST_LENGTH, serialize32, List.range_succ, be32enc_eq]

theorem count_bytes_eq_be64 (n : Nat) (h : n < 2 ^ 64) :
    be32enc_vect [n / 2 ^ 32 % 2 ^ 32, n % 2 ^ 32] 8 = be64 n := by
  rw [be32enc_vect_two]
  simp only [List.getD_cons_succ, List.getD_cons_zero, be32enc_eq, bigEndian32, be64,
    List.cons_append, List.nil_append]
  norm_num at h ⊢
  refine ⟨?_, ?_, ?_, ?_, ?_, ?_⟩ <;> omega

theorem PAD_take (k : Nat) (h : k < 64) : PAD.take (k + 1) = 0x80 :: List.replicate k 0 := by
  simp only [PAD, List.take_succ_cons, List.take_replicate]
  rw [Nat.min_eq_left (by omega)]

theorem finalInput_eq_paddedMessage (m : List Nat) (k : Nat) (hm : m.length < 2 ^ 61)
    (hk : (m.length + 1 + k + 8) % 64 = 0)
    (hleast : ∀ j, j < k → (m.length + 1 + j + 8) % 64 ≠ 0) :
    finalInput m = paddedMessage m k := by
  have hk64 : k < 64 := by
    by_contra hge
    exact hleast (k - 64) (by omega) (by omega)
  have hplen : (if m.length % 64 < 56 then 56 - m.length % 64 else 120 - m.length % 64)
      = k + 1 := by
    split <;> omega
  have hn : 8 * m.length < 2 ^ 64 := by
    norm_num at hm ⊢
    omega
  unfold finalInput paddedMessage
  rw [hplen, PAD_take k hk64, count_bytes_eq_be64 _ hn]
  simp

/-- **C2.** For every message `m` of fewer than `2 ^ 61` bytes, and whatever the local
context record held before, `SHA256_` returns the 32 bytes of the big-endian
serialisation of the eight state words obtained by folding `internalSHA256Transform`,
from the initial constants of `internalSHA256Init`, over the consecutive 64-byte blocks
of `m ∥ 0x80 ∥ 0x00^k ∥ be64(8·|m|)`, `k` being the least number of zero bytes that makes
the total length a multiple of 64. -/
theorem C2_SHA256_padding (c : SHA256CTX) (m : List Nat) (k : Nat)
    (hm : m.length < 2 ^ 61)
    (hk : (m.length + 1 + k + 8) % 64 = 0)
    (hleast : ∀ j, j < k → (m.length + 1 + j + 8) % 64 ≠ 0) :
    SHA256_ c m
      = serialize32 ((blocks64 (paddedMessage m k)).foldl internalSHA256Transform initialState)
    ∧ (SHA256_ c m).length = 32
    ∧ ((blocks64 (paddedMessage m k)).foldl internalSHA256Transform initialState).length = 8
    ∧ (blocks64 (paddedMessage m k)).flatten = paddedMessage m k := by
  have hfin := finalInput_eq_paddedMessage m k hm hk hleast
  have hlen8 := length_compress initialState (paddedMessage m k) length_initialState
  have hdig : SHA256_ c m = serialize32 (compress initialState (paddedMessage m k)) := by
    rw [SHA256_eq, hfin, be32enc_vect_eq_serialize32 _ hlen8]
  refine ⟨hdig, ?_, hlen8, ?_⟩
  · rw [SHA256_eq, length_be32enc_vect]
    rfl
  · apply flatten_blocks64
    rw [← hfin]
    exact length_finalInput m

/-- Witness of C2: the three-byte message "abc", for which `k = 52`. -/
theorem C2_SHA256_padding_witness :
    ([0x61, 0x62, 0x63] : List Nat).length < 2 ^ 61 ∧
    (SHA256_ ⟨[], [], []⟩ [0x61, 0x62, 0x63]
      = serialize32 ((blocks64 (paddedMessage [0x61, 0x62, 0x63] 52)).foldl
          internalSHA256Transform initialState)
    ∧ (SHA256_ ⟨[], [], []⟩ [0x61, 0x62, 0x63]).length = 32
    ∧ ((blocks64 (paddedMessage [0x61, 0x62, 0x63] 52)).foldl
          internalSHA256Transform initialState).length = 8
    ∧ (blocks64 (paddedMessage [0x61, 0x62, 0x63] 52)).flatten
        = paddedMessage [0x61, 0x62, 0x63] 52) :=
  ⟨by decide, C2_SHA256_padding ⟨[], [], []⟩ [0x61, 0x62, 0x63] 52 (by decide) (by decide)
    (by decide)⟩

/-- **C3.** Whatever the local context record held before, `SHA256_` applied to the empty
input returns the 32 bytes
`e3b0c44298fc1c149afbf4c8996fb92427ae41e4649b934ca495991b7852b855`. -/
theorem C3_SHA256_empty (c : SHA256CTX) :
    SHA256_ c [] =
      [0xe3, 0xb0, 0xc4, 0x42, 0x98, 0xfc, 0x1c, 0x14, 0x9a, 0xfb, 0xf4, 0xc8, 0x99, 0x6f,
       0xb9, 0x24, 0x27, 0xae, 0x41, 0xe4, 0x64, 0x9b, 0x93, 0x4c, 0xa4, 0x95, 0x99, 0x1b,
       0x78, 0x52, 0xb8, 0x55] := by
  rw [SHA256_eq]
  decide

/-- **C4.** Whatever the local context record held before, `SHA256_` applied to the three
bytes `0x61 0x62 0x63` ("abc") returns the 32 bytes
`ba7816bf8f01cfea414140de5dae2223b00361a396177a9cb410ff61f20015ad`. -/
theorem C4_SHA256_abc (c : SHA256CTX) :
    SHA256_ c [0x61, 0x62, 0x63] =
      [0xba, 0x78, 0x16, 0xbf, 0x8f, 0x01, 0xcf, 0xea, 0x41, 0x41, 0x40, 0xde, 0x5d, 0xae,
       0x22, 0x23, 0xb0, 0x03, 0x61, 0xa3, 0x96, 0x17, 0x7a, 0x9c, 0xb4, 0x10, 0xff, 0x61,
       0xf2, 0x00, 0x15, 0xad] := by
  rw [SHA256_eq]
  decide

/-! ## HMAC-SHA512 -/

theorem xorKey_succ (pad key : List Nat) (n : Nat) :
    xorKey pad key (n + 1)
      = (xorKey pad key n).set n ((xorKey pad key n).getD n 0 ^^^ key.getD n 0) := by
  simp [xorKey, List.range_succ]

theorem length_xorKey (pad key : List Nat) (n : Nat) :
    (xorKey pad key n).length = pad.length := by
  induction n with
  | zero => simp [xorKey]
  | succ n ih => rw [xorKey_succ, List.length_set, ih]

/-- Entry `i` of the pad after the key loop. -/
theorem xorKey_getElem? (pad key : List Nat) (n i : Nat) :
    (xorKey pad key n)[i]?
      = if i < n then pad[i]?.map (fun b => b ^^^ key.getD i 0) else pad[i]? := by
  induction n with
  | zero => simp [xorKey]
  | succ n ih =>
    rw [xorKey_succ, List.getElem?_set]
    by_cases hni : n = i
    · subst hni
      have hn : (xorKey pad key n)[n]? = pad[n]? := by simpa using ih
      rw [if_pos rfl, if_pos (Nat.lt_succ_self n), length_xorKey, List.getD_eq_getElem?_getD,
        hn]
      by_cases hl : n < pad.length
      · simp [hl]
      · have hnone : pad[n]? = none := List.getElem?_eq_none (by omega)
        simp [hl, hnone]
    · rw [if_neg hni, ih]
      by_cases hlt : i < n
      · rw [if_pos hlt, if_pos (by omega)]
      · rw [if_neg hlt, if_neg (by omega)]

/-- After the key loop a pad filled with `b` holds the zero-extended key, bytewise
exclusive-or-ed with `b`. -/
theorem xorKey_fill (key : List Nat) (b : Nat) (h : key.length ≤ 128) :
    xorKey (fill SHA512_BLOCK_LENGTH b) key key.length
      = xorBytes (zeroExtend key) (List.replicate 128 b) := by
  apply List.ext_getElem?
  intro i
  rw [xorKey_getElem?]
  simp only [fill, SHA512_BLOCK_LENGTH, xorBytes, zeroExtend, List.getElem?_zipWith,
    List.getElem?_replicate, List.getElem?_append, List.getD_eq_getElem?_getD]
  by_cases hi : i < 128
  · by_cases hk : i < key.length
    · simp [hi, hk, Nat.xor_comm]
    · have hnone : key[i]? = none := List.getElem?_eq_none (by omega)
      have hlt : i - key.length < 128 - key.length := by omega
      simp [hi, hk, hnone, hlt]
  · have hk : ¬ i < key.length := by omega
    have hlt : ¬ i - key.length < 128 - key.length := by omega
    simp [hi, hk, hlt]

theorem init_context_short {σ : Type} (E : SHA512Engine σ) (c : HMACSHA512CTX σ)
    (K : List Nat) (h : K.length ≤ 128) :
    (HMACSHA512Init E c K).context =
      { ictx := E.internalSHA512Update (E.internalSHA512Init c.ictx)
          (xorKey (fill SHA512_BLOCK_LENGTH 0x36) K K.length)
        octx := E.internalSHA512Update (E.internalSHA512Init c.octx)
          (xorKey (fill SHA512_BLOCK_LENGTH 0x5c) K K.length) } := by
  have hn : ¬ K.length > SHA512_BLOCK_LENGTH := by
    simp only [SHA512_BLOCK_LENGTH]; omega
  unfold HMACSHA512Init
  rw [if_neg hn]

theorem init_context_long {σ : Type} (E : SHA512Engine σ) (c : HMACSHA512CTX σ)
    (K : List Nat) (h : 128 < K.length) :
    (HMACSHA512Init E c K).context =
      { ictx := E.internalSHA512Update
          (E.internalSHA512Init (E.internalSHA512Final
            (E.internalSHA512Update (E.internalSHA512Init c.ictx) K)).1)
          (xorKey (fill SHA512_BLOCK_LENGTH 0x36)
            (E.internalSHA512Final (E.internalSHA512Update (E.internalSHA512Init c.ictx) K)).2
            SHA512_DIGEST_LENGTH)
        octx := E.internalSHA512Update (E.internalSHA512Init c.octx)
          (xorKey (fill SHA512_BLOCK_LENGTH 0x5c)
            (E.internalSHA512Final (E.internalSHA512Update (E.internalSHA512Init c.ictx) K)).2
            SHA512_DIGEST_LENGTH) } := by
  have hp : K.length > SHA512_BLOCK_LENGTH := by
    simp only [SHA512_BLOCK_LENGTH]; omega
  unfold HMACSHA512Init
  rw [if_pos hp]

theorem contract_one {σ : Type} {E : SHA512Engine σ} {H : List Nat → List Nat}
    (hE : StreamingContract E H) (c : σ) (a : List Nat) :
    (E.internalSHA512Final (E.internalSHA512Update (E.internalSHA512Init c) a)).2 = H a := by
  simpa using hE.streaming c [a]

theorem contract_two {σ : Type} {E : SHA512Engine σ} {H : List Nat → List Nat}
    (hE : StreamingContract E H) (c : σ) (a b : List Nat) :
    (E.internalSHA512Final
      (E.internalSHA512Update (E.internalSHA512Update (E.internalSHA512Init c) a) b)).2
      = H (a ++ b) := by
  simpa using hE.streaming c [a, b]

/-- The tag computed by `HMACSHA512` from the two pads left by `HMACSHA512Init`. -/
theorem hmac_of_pads {σ : Type} {E : SHA512Engine σ} {H : List Nat → List Nat}
    (hE : StreamingContract E H) (ci co : σ) (padI padO m : List Nat) :
    (HMACSHA512Final E (HMACSHA512Update E
      { ictx := E.internalSHA512Update (E.internalSHA512Init ci) padI
        octx := E.internalSHA512Update (E.internalSHA512Init co) padO } m)).2
      = H (padO ++ H (padI ++ m)) := by
  unfold HMACSHA512Final HMACSHA512Update
  simp only []
  rw [contract_two hE ci padI m]
  have hlen : (H (padI ++ m)).take HMACSHA512_DIGEST_LENGTH = H (padI ++ m) := by
    apply List.take_of_length_le
    rw [hE.digest_length]
    decide
  rw [hlen, contract_two hE co padO]

/-- The tag of `HMACSHA512` is the HMAC construction over the engine's hash function. -/
theorem HMACSHA512_eq {σ : Type} {E : SHA512Engine σ} {H : List Nat → List Nat}
    (hE : StreamingContract E H) (c : HMACSHA512CTX σ) (m K : List Nat) :
    HMACSHA512 E c m K = hmacSpec H K m := by
  unfold HMACSHA512 hmacSpec blockKey
  simp only []
  by_cases h : K.length ≤ 128
  · rw [init_context_short E c K h, hmac_of_pads hE, if_pos h, xorKey_fill K _ h,
      xorKey_fill K _ h]
    rfl
  · have hl : 128 < K.length := by omega
    have hd : (H K).length = 64 := hE.digest_length K
    rw [init_context_long E c K hl, hmac_of_pads hE, if_neg h, contract_one hE]
    have h64 : SHA512_DIGEST_LENGTH = (H K).length := hd.symm
    rw [h64, xorKey_fill (H K) _ (by omega), xorKey_fill (H K) _ (by omega)]
    rfl

theorem foldl_append_flatten (chunks : List (List Nat)) :
    ∀ acc : List Nat, chunks.foldl (fun c input => c ++ input) acc = acc ++ chunks.flatten := by
  induction chunks with
  | nil => intro acc; simp
  | cons x xs ih => intro acc; simp [ih, List.append_assoc]

/-- The engine `prefixEngine` meets the contract for `prefixHash`. -/
theorem prefixEngine_contract : StreamingContract prefixEngine prefixHash where
  streaming := by
    intro c chunks
    simp [prefixEngine, foldl_append_flatten]
  digest_length := by
    intro m
    simp [prefixHash, SHA512_DIGEST_LENGTH]

/-- **C5.** For every key `K` and message `m`, for any SHA-512 engine whose
`Init`/`Update`/`Final` meet the streaming contract for a hash function `H` with 64-byte
digests, and whatever the context record held before, `HMACSHA512(m, K)` (and the wrapper
`hmac_sha512_hash`) is `H((K' ⊕ opad) ∥ H((K' ⊕ ipad) ∥ m))`, where `ipad` is 128 bytes
of `0x36`, `opad` is 128 bytes of `0x5c`, and `K'` is `K` zero-extended to 128 bytes when
`|K| ≤ 128` and `H(K)` zero-extended to 128 bytes when `|K| > 128`. -/
theorem C5_HMACSHA512_construction {σ : Type} (E : SHA512Engine σ) (H : List Nat → List Nat)
    (hE : StreamingContract E H) (c : HMACSHA512CTX σ) (m K : List Nat) :
    HMACSHA512 E c m K
        = H (xorBytes (blockKey H K) opad ++ H (xorBytes (blockKey H K) ipad ++ m))
    ∧ hmac_sha512_hash E c m K
        = H (xorBytes (blockKey H K) opad ++ H (xorBytes (blockKey H K) ipad ++ m))
    ∧ blockKey H K = (if K.length ≤ 128 then K ++ List.replicate (128 - K.length) 0
        else H K ++ List.replicate 64 0)
    ∧ (blockKey H K).length = 128
    ∧ ipad = List.replicate 128 0x36 ∧ opad = List.replicate 128 0x5c := by
  have hd : (H K).length = 64 := hE.digest_length K
  refine ⟨HMACSHA512_eq hE c m K, HMACSHA512_eq hE c m K, ?_, ?_, rfl, rfl⟩
  · unfold blockKey zeroExtend
    rw [hd]
  · unfold blockKey zeroExtend
    split
    · simp; omega
    · simp [hd]

/-- Witness of C5: the engine `prefixEngine`, the key "key" and a three-byte message. -/
theorem C5_HMACSHA512_construction_witness :
    StreamingContract prefixEngine prefixHash ∧
    (HMACSHA512 prefixEngine ⟨[], []⟩ [1, 2, 3] [0x6b, 0x65, 0x79]
        = prefixHash (xorBytes (blockKey prefixHash [0x6b, 0x65, 0x79]) opad
            ++ prefixHash (xorBytes (blockKey prefixHash [0x6b, 0x65, 0x79]) ipad ++ [1, 2, 3]))
    ∧ hmac_sha512_hash prefixEngine ⟨[], []⟩ [1, 2, 3] [0x6b, 0x65, 0x79]
        = prefixHash (xorBytes (blockKey prefixHash [0x6b, 0x65, 0x79]) opad
            ++ prefixHash (xorBytes (blockKey prefixHash [0x6b, 0x65, 0x79]) ipad ++ [1, 2, 3]))
    ∧ blockKey prefixHash [0x6b, 0x65, 0x79]
        = (if ([0x6b, 0x65, 0x79] : List Nat).length ≤ 128
            then [0x6b, 0x65, 0x79]
              ++ List.replicate (128 - ([0x6b, 0x65, 0x79] : List Nat).length) 0
            else prefixHash [0x6b, 0x65, 0x79] ++ List.replicate 64 0)
    ∧ (blockKey prefixHash [0x6b, 0x65, 0x79]).length = 128
    ∧ ipad = List.replicate 128 0x36 ∧ opad = List.replicate 128 0x5c) :=
  ⟨prefixEngine_contract,
    C5_HMACSHA512_construction prefixEngine prefixHash prefixEngine_contract ⟨[], []⟩ [1, 2, 3]
      [0x6b, 0x65, 0x79]⟩

/-- **C6.** For every message `m`, for any SHA-512 engine meeting the streaming contract
for `H`: a key `K` longer than the 128-byte block length gives the tag of the 64-byte
key `H(K)`, `HMACSHA512(m, K) = HMACSHA512(m, H(K))`, where `H(K)` is the digest the
engine computes for `K`; and a key of exactly 128 bytes is used as it is, not hashed:
its tag is `H((K ⊕ opad) ∥ H((K ⊕ ipad) ∥ m))`. -/
theorem C6_oversized_key_hashed {σ : Type} (E : SHA512Engine σ) (H : List Nat → List Nat)
    (hE : StreamingContract E H) (c c' : HMACSHA512CTX σ) (m K K128 : List Nat)
    (hK : 128 < K.length) (h128 : K128.length = 128) :
    HMACSHA512 E c m K = HMACSHA512 E c' m (H K)
    ∧ (E.internalSHA512Final
        (E.internalSHA512Update (E.internalSHA512Init c.ictx) K)).2 = H K
    ∧ (H K).length = 64
    ∧ HMACSHA512 E c m K128 = H (xorBytes K128 opad ++ H (xorBytes K128 ipad ++ m)) := by
  have hd : (H K).length = 64 := hE.digest_length K
  refine ⟨?_, contract_one hE _ K, hd, ?_⟩
  · rw [HMACSHA512_eq hE, HMACSHA512_eq hE]
    have h1 : ¬ K.length ≤ 128 := by omega
    have h2 : (H K).length ≤ 128 := by omega
    simp only [hmacSpec, blockKey, if_neg h1, if_pos h2]
  · rw [HMACSHA512_eq hE]
    have h1 : K128.length ≤ 128 := by omega
    simp [hmacSpec, blockKey, if_pos h1, zeroExtend, h128]

/-- Witness of C6: the engine `prefixEngine`, a key of 129 bytes and a key of 128 bytes. -/
theorem C6_oversized_key_hashed_witness :
    StreamingContract prefixEngine prefixHash ∧
    128 < (List.replicate 129 7).length ∧ (List.replicate 128 7).length = 128 ∧
    (HMACSHA512 prefixEngine ⟨[], []⟩ [1, 2, 3] (List.replicate 129 7)
        = HMACSHA512 prefixEngine ⟨[9], [8]⟩ [1, 2, 3] (prefixHash (List.replicate 129 7))
    ∧ (prefixEngine.internalSHA512Final (prefixEngine.internalSHA512Update
        (prefixEngine.internalSHA512Init (HMACSHA512CTX.mk ([] : List Nat) []).ictx)
        (List.replicate 129 7))).2 = prefixHash (List.replicate 129 7)
    ∧ (prefixHash (List.replicate 129 7)).length = 64
    ∧ HMACSHA512 prefixEngine ⟨[], []⟩ [1, 2, 3] (List.replicate 128 7)
        = prefixHash (xorBytes (List.replicate 128 7) opad
            ++ prefixHash (xorBytes (List.replicate 128 7) ipad ++ [1, 2, 3]))) :=
  ⟨prefixEngine_contract, by decide, by decide,
    C6_oversized_key_hashed prefixEngine prefixHash prefixEngine_contract ⟨[], []⟩ ⟨[9], [8]⟩
      [1, 2, 3] (List.replicate 129 7) (List.replicate 128 7) (by decide) (by decide)⟩

/-! ## Erasure -/

/-- An update that does not fit in the free part of the buffer leaves a state of eight
words. -/
theorem update_state_length (c : SHA256CTX) (x : List Nat)
    (h : ¬ x.length < 64 - occupancy c) : (internalSHA256Update c x).state.length = 8 := by
  unfold internalSHA256Update
  simp only []
  rw [show (c.count.getD 1 0 >>> 3) &&& 0x3f = occupancy c from rfl, if_neg h,
    transformLoop_eq _ _ _ (Nat.div_le_self _ _)]
  exact length_compress _ _ (length_transform _ _)

/-- The state left by `internalSHA256Pad` has eight words, for every context. -/
theorem pad_state_length (c : SHA256CTX) : (internalSHA256Pad c).state.length = 8 := by
  unfold internalSHA256Pad
  simp only []
  rw [show (c.count.getD 1 0 >>> 3) &&& 0x3f = occupancy c from rfl]
  apply update_state_length
  have hr := occupancy_lt c
  rw [update_occupancy, be32enc_vect_two]
  simp only [List.length_take, length_PAD, List.length_append, length_be32enc]
  split <;> omega

/-- **C7.** For every SHA-256 context, after `internalSHA256Final` every field of the
context record is zero (the eight state words, both count words and the 64 buffer bytes),
and the digest written is the big-endian serialisation of the eight state words as they
were after `internalSHA256Pad`. -/
theorem C7_final_erases_context (c : SHA256CTX) :
    (internalSHA256Final c).1.state = List.replicate 8 0
    ∧ (internalSHA256Final c).1.count = List.replicate 2 0
    ∧ (internalSHA256Final c).1.buf = List.replicate 64 0
    ∧ (internalSHA256Final c).2 = serialize32 (internalSHA256Pad c).state
    ∧ (internalSHA256Pad c).state.length = 8 := by
  refine ⟨rfl, rfl, rfl, ?_, pad_state_length c⟩
  unfold internalSHA256Final
  simp only []
  exact be32enc_vect_eq_serialize32 _ (pad_state_length c)

/-- **C8.** `HMACSHA512Init` erases `key_hash` for every key, but returns with the key-pad
buffer `pad` still holding `K' ⊕ 0x5c`: for the key "key" (`0x6b 0x65 0x79`) the buffer
holds `0x37 0x39 0x25` followed by 125 bytes `0x5c`, which is not all zero. -/
theorem C8_pad_left_unerased {σ : Type} (E : SHA512Engine σ) (c : HMACSHA512CTX σ) :
    (HMACSHA512Init E c [0x6b, 0x65, 0x79]).pad
        = 0x37 :: 0x39 :: 0x25 :: List.replicate 125 0x5c
    ∧ (HMACSHA512Init E c [0x6b, 0x65, 0x79]).pad ≠ List.replicate 128 0
    ∧ ∀ K : List Nat, (HMACSHA512Init E c K).key_hash = List.replicate 64 0 := by
  have hpad : (HMACSHA512Init E c [0x6b, 0x65, 0x79]).pad
      = 0x37 :: 0x39 :: 0x25 :: List.replicate 125 0x5c := rfl
  refine ⟨hpad, ?_, ?_⟩
  · rw [hpad]
    decide
  · intro K
    unfold HMACSHA512Init
    split
    rfl

/-! ## The counter and the invariant of reachable contexts -/

/-- **C9.** For every SHA-256 context whose low count word is a 32-bit word and every
input (of length `L < 2 ^ 64`), `internalSHA256Update` leaves
`count[0]·2^32 + count[1]` equal to its previous value plus `8·L`, modulo `2 ^ 64`: the
low word is the old low word plus `8·L` modulo `2 ^ 32`, and the high word receives the
carry of that addition and the high bits of `8·L`. -/
theorem C9_counter_update (c : SHA256CTX) (input : List Nat)
    (hlow : c.count.getD 1 0 < 2 ^ 32) (hL : input.length < 2 ^ 64) :
    bitCount (internalSHA256Update c input) = (bitCount c + 8 * input.length) % 2 ^ 64
    ∧ (internalSHA256Update c input).count.getD 1 0
        = (c.count.getD 1 0 + 8 * input.length) % 2 ^ 32
    ∧ (internalSHA256Update c input).count.getD 0 0
        = (c.count.getD 0 0 + (c.count.getD 1 0 + 8 * input.length % 2 ^ 32) / 2 ^ 32
            + 8 * input.length / 2 ^ 32) % 2 ^ 32 := by
  have _ := hL
  refine ⟨?_, ?_, ?_⟩
  · unfold bitCount
    rw [update_count]
    exact counter_arith _ _ _ hlow
  · rw [update_count]
    simp only [List.getD_cons_succ, List.getD_cons_zero, u32, Nat.shiftLeft_eq]
    norm_num
    omega
  · rw [update_count]
    simp only [List.getD_cons_zero, u32, Nat.shiftLeft_eq, Nat.shiftRight_eq_div_pow]
    norm_num at hlow ⊢
    split <;> omega

/-- Witness of C9: a context whose low word is `0xfffffff8`, so that one more byte
carries into the high word. -/
theorem C9_counter_update_witness :
    (SHA256CTX.mk [] [0, 0xfffffff8] []).count.getD 1 0 < 2 ^ 32 ∧
    ([0x61] : List Nat).length < 2 ^ 64 ∧
    (bitCount (internalSHA256Update ⟨[], [0, 0xfffffff8], []⟩ [0x61])
        = (bitCount ⟨[], [0, 0xfffffff8], []⟩ + 8 * ([0x61] : List Nat).length) % 2 ^ 64
    ∧ (internalSHA256Update ⟨[], [0, 0xfffffff8], []⟩ [0x61]).count.getD 1 0
        = ((SHA256CTX.mk [] [0, 0xfffffff8] []).count.getD 1 0
            + 8 * ([0x61] : List Nat).length) % 2 ^ 32
    ∧ (internalSHA256Update ⟨[], [0, 0xfffffff8], []⟩ [0x61]).count.getD 0 0
        = ((SHA256CTX.mk [] [0, 0xfffffff8] []).count.getD 0 0
            + ((SHA256CTX.mk [] [0, 0xfffffff8] []).count.getD 1 0
                + 8 * ([0x61] : List Nat).length % 2 ^ 32) / 2 ^ 32
            + 8 * ([0x61] : List Nat).length / 2 ^ 32) % 2 ^ 32) :=
  ⟨by decide, by decide,
    C9_counter_update ⟨[], [0, 0xfffffff8], []⟩ [0x61] (by decide) (by decide)⟩

/-- **C10.** In every context reached from `internalSHA256Init` (run on any record) by a
sequence of `internalSHA256Update` calls that absorbed the message `M`, the buffer
occupancy `(count[1] >> 3) & 0x3f` is `|M| mod 64`, the first `|M| mod 64` bytes of `buf`
are the last `|M| mod 64` bytes of `M`, and `state` is the fold of
`internalSHA256Transform`, from the state set by `internalSHA256Init`, over the
`⌊|M|/64⌋` complete blocks of `M`. -/
theorem C10_reachable_invariant (c : SHA256CTX) (chunks : List (List Nat)) :
    ((chunks.foldl internalSHA256Update (internalSHA256Init c)).count.getD 1 0 >>> 3) &&& 0x3f
        = chunks.flatten.length % 64
    ∧ (chunks.foldl internalSHA256Update (internalSHA256Init c)).buf.take
          (chunks.flatten.length % 64)
        = chunks.flatten.drop (chunks.flatten.length - chunks.flatten.length % 64)
    ∧ (chunks.foldl internalSHA256Update (internalSHA256Init c)).state
        = (blocks64 chunks.flatten).foldl internalSHA256Transform (internalSHA256Init c).state
    ∧ (blocks64 chunks.flatten).length = chunks.flatten.length / 64
    ∧ (blocks64 chunks.flatten).flatten
        = chunks.flatten.take (chunks.flatten.length - chunks.flatten.length % 64) := by
  have h := absorbed_foldl chunks _ _ (absorbed_init c)
  rw [List.nil_append] at h
  have hq : 64 * (chunks.flatten.length / 64)
      = chunks.flatten.length - chunks.flatten.length % 64 := by omega
  refine ⟨absorbed_occupancy h, ?_, h.1, ?_, ?_⟩
  · rw [h.2.2, hq]
  · simp [blocks64]
  · rw [flatten_blocks64_aux _ _ rfl, hq]

theorem absorbed_bitCount {c : SHA256CTX} {M : List Nat} (h : Absorbed c M) :
    bitCount c = 8 * M.length % 2 ^ 64 := by
  unfold bitCount
  rw [h.2.1]
  simp only [List.getD_cons_succ, List.getD_cons_zero]
  norm_num
  omega

/-- The counter after an update, from the two count words before and the input length. -/
theorem bitCount_update_of_count (c : SHA256CTX) (input : List Nat) (L c0 c1 : Nat)
    (hL : input.length = L) (hc : c.count = [c0, c1]) (h1 : c1 < 2 ^ 32) :
    bitCount (internalSHA256Update c input) = (c0 * 2 ^ 32 + c1 + 8 * L) % 2 ^ 64 := by
  unfold bitCount
  rw [update_count, hL, hc]
  exact counter_arith c0 c1 L h1

theorem count_after_one_byte :
    (internalSHA256Update (internalSHA256Init ⟨[], [], []⟩) [0]).count = [0, 8] := by
  decide

/-- Counterexample to C11 as stated: after one byte the counter of a context reached
from `internalSHA256Init` is 8; an update with `2 ^ 61 - 1` further bytes brings the total
to `2 ^ 64` bits and leaves the counter at 0, below its previous value. -/
theorem C11_counter_wraps :
    bitCount (internalSHA256Update (internalSHA256Init ⟨[], [], []⟩) [0]) = 8
    ∧ bitCount (internalSHA256Update
        (internalSHA256Update (internalSHA256Init ⟨[], [], []⟩) [0])
        (List.replicate (2 ^ 61 - 1) 0)) = 0 :=
  ⟨by decide,
    (bitCount_update_of_count _ _ (2 ^ 61 - 1) 0 8 (List.length_replicate _ _)
      count_after_one_byte (by decide)).trans (by decide)⟩

/-- **C11 (amended).** For every context reached from `internalSHA256Init` by Update
calls that absorbed `M`, and every input `x` with `|M| + |x| < 2 ^ 61` bytes (a total below
`2 ^ 64` bits), the 64-bit counter `count[0]·2^32 + count[1]` after
`internalSHA256Update` is at least its value before the call: it goes from `8·|M|` to
`8·(|M| + |x|)`. -/
theorem C11_counter_monotone_below_wrap (c : SHA256CTX) (chunks : List (List Nat))
    (input : List Nat) (h : chunks.flatten.length + input.length < 2 ^ 61) :
    bitCount (chunks.foldl internalSHA256Update (internalSHA256Init c))
      ≤ bitCount (internalSHA256Update
          (chunks.foldl internalSHA256Update (internalSHA256Init c)) input)
    ∧ bitCount (chunks.foldl internalSHA256Update (internalSHA256Init c))
        = 8 * chunks.flatten.length
    ∧ bitCount (internalSHA256Update
          (chunks.foldl internalSHA256Update (internalSHA256Init c)) input)
        = 8 * (chunks.flatten.length + input.length) := by
  have h0 := absorbed_foldl chunks _ _ (absorbed_init c)
  rw [List.nil_append] at h0
  have h1 := absorbed_update h0 input
  have e0 := absorbed_bitCount h0
  have e1 := absorbed_bitCount h1
  rw [List.length_append] at e1
  rw [e0, e1]
  generalize chunks.flatten.length = a at h ⊢
  generalize input.length = b at h ⊢
  have h64 : (2 : Nat) ^ 64 = 18446744073709551616 := by norm_num
  have h61 : (2 : Nat) ^ 61 = 2305843009213693952 := by norm_num
  rw [h61] at h
  rw [h64]
  refine ⟨?_, ?_, ?_⟩ <;> omega

/-- Witness of the amended C11: two chunks absorbed, then a three-byte input. -/
theorem C11_counter_monotone_below_wrap_witness :
    ([[1, 2], [3]] : List (List Nat)).flatten.length + ([4, 5, 6] : List Nat).length < 2 ^ 61
    ∧ (bitCount (([[1, 2], [3]] : List (List Nat)).foldl internalSHA256Update
          (internalSHA256Init ⟨[], [], []⟩))
      ≤ bitCount (internalSHA256Update
          (([[1, 2], [3]] : List (List Nat)).foldl internalSHA256Update
            (internalSHA256Init ⟨[], [], []⟩)) [4, 5, 6])
    ∧ bitCount (([[1, 2], [3]] : List (List Nat)).foldl internalSHA256Update
          (internalSHA256Init ⟨[], [], []⟩))
        = 8 * ([[1, 2], [3]] : List (List Nat)).flatten.length
    ∧ bitCount (internalSHA256Update
          (([[1, 2], [3]] : List (List Nat)).foldl internalSHA256Update
            (internalSHA256Init ⟨[], [], []⟩)) [4, 5, 6])
        = 8 * (([[1, 2], [3]] : List (List Nat)).flatten.length
            + ([4, 5, 6] : List Nat).length)) :=
  ⟨by decide,
    C11_counter_monotone_below_wrap ⟨[], [], []⟩ [[1, 2], [3]] [4, 5, 6] (by decide)⟩

/-! ## Independence from the prior content of the context -/

/-- **C16.** The digest computed by `internalSHA256Init`, any Updates and
`internalSHA256Final` does not depend on what the context record held before:
`internalSHA256Init` sets the eight state words to the SHA-256 initial constants and both
count words to 0 for every prior context and leaves `buf` as it was, and for any two prior
contexts `c`, `c'` (stale buffer bytes included) the same sequence of Updates gives the
same digest; so does `SHA256_`. -/
theorem C16_digest_independent_of_prior_context (c c' : SHA256CTX)
    (chunks : List (List Nat)) (m : List Nat) :
    (internalSHA256Init c).state
        = [0x6A09E667, 0xBB67AE85, 0x3C6EF372, 0xA54FF53A,
           0x510E527F, 0x9B05688C, 0x1F83D9AB, 0x5BE0CD19]
    ∧ (internalSHA256Init c).count = [0, 0]
    ∧ (internalSHA256Init c).buf = c.buf
    ∧ (internalSHA256Final (chunks.foldl internalSHA256Update (internalSHA256Init c))).2
        = (internalSHA256Final (chunks.foldl internalSHA256Update (internalSHA256Init c'))).2
    ∧ SHA256_ c m = SHA256_ c' m := by
  refine ⟨rfl, rfl, rfl, ?_, ?_⟩
  · have h := absorbed_foldl chunks _ _ (absorbed_init c)
    have h' := absorbed_foldl chunks _ _ (absorbed_init c')
    rw [final_digest h, final_digest h']
  · rw [SHA256_eq, SHA256_eq]

/-! ## The outer context and zero-extended keys -/

theorem foldl_HMACSHA512Update_octx {σ : Type} (E : SHA512Engine σ)
    (chunks : List (List Nat)) :
    ∀ ctx : HMACSHA512CTX σ, (chunks.foldl (HMACSHA512Update E) ctx).octx = ctx.octx := by
  induction chunks with
  | nil => intro ctx; rfl
  | cons x xs ih => intro ctx; rw [List.foldl_cons, ih]; rfl

theorem length_blockKey {σ : Type} {E : SHA512Engine σ} {H : List Nat → List Nat}
    (hE : StreamingContract E H) (K : List Nat) : (blockKey H K).length = 128 := by
  have hd : (H K).length = 64 := hE.digest_length K
  unfold blockKey zeroExtend
  split
  · simp; omega
  · simp [hd]

/-- The outer context left by `HMACSHA512Init` has absorbed the block `K' ⊕ opad`. -/
theorem init_octx {σ : Type} {E : SHA512Engine σ} {H : List Nat → List Nat}
    (hE : StreamingContract E H) (c : HMACSHA512CTX σ) (K : List Nat) :
    (HMACSHA512Init E c K).context.octx
      = E.internalSHA512Update (E.internalSHA512Init c.octx)
          (xorBytes (blockKey H K) opad) := by
  unfold blockKey
  by_cases h : K.length ≤ 128
  · rw [init_context_short E c K h, if_pos h]
    dsimp only
    rw [xorKey_fill K _ h]
    rfl
  · have hl : 128 < K.length := by omega
    have hd : (H K).length = 64 := hE.digest_length K
    have h64 : SHA512_DIGEST_LENGTH = (H K).length := hd.symm
    rw [init_context_long E c K hl, if_neg h, contract_one hE, h64]
    dsimp only
    rw [xorKey_fill (H K) _ (by omega)]
    rfl

/-- **C12.** For every HMAC-SHA512 context and every input, `HMACSHA512Update` leaves the
outer context `octx` unchanged and changes the inner context `ictx` exactly as
`internalSHA512Update` does on that input; hence, for an engine meeting the streaming
contract for `H`, after `HMACSHA512Init` and any number of Updates `octx` is still the
SHA-512 state that has absorbed, after `internalSHA512Init`, only the 128-byte block
`K' ⊕ 0x5c`. -/
theorem C12_update_leaves_outer_context {σ : Type} (E : SHA512Engine σ)
    (H : List Nat → List Nat) (hE : StreamingContract E H) (ctx c : HMACSHA512CTX σ)
    (input K : List Nat) (chunks : List (List Nat)) :
    (HMACSHA512Update E ctx input).octx = ctx.octx
    ∧ (HMACSHA512Update E ctx input).ictx = E.internalSHA512Update ctx.ictx input
    ∧ (chunks.foldl (HMACSHA512Update E) (HMACSHA512Init E c K).context).octx
        = E.internalSHA512Update (E.internalSHA512Init c.octx) (xorBytes (blockKey H K) opad)
    ∧ (xorBytes (blockKey H K) opad).length = 128 := by
  refine ⟨rfl, rfl, ?_, ?_⟩
  · rw [foldl_HMACSHA512Update_octx, init_octx hE]
  · simp [xorBytes, opad, length_blockKey hE K]

/-- Witness of C12: the engine `prefixEngine`, the key "key" and two Updates. -/
theorem C12_update_leaves_outer_context_witness :
    StreamingContract prefixEngine prefixHash ∧
    ((HMACSHA512Update prefixEngine ⟨[1], [2]⟩ [3, 4]).octx
        = (HMACSHA512CTX.mk [1] [2]).octx
    ∧ (HMACSHA512Update prefixEngine ⟨[1], [2]⟩ [3, 4]).ictx
        = prefixEngine.internalSHA512Update (HMACSHA512CTX.mk [1] [2]).ictx [3, 4]
    ∧ (([[5], [6, 7]] : List (List Nat)).foldl (HMACSHA512Update prefixEngine)
          (HMACSHA512Init prefixEngine ⟨[], []⟩ [0x6b, 0x65, 0x79]).context).octx
        = prefixEngine.internalSHA512Update
            (prefixEngine.internalSHA512Init (HMACSHA512CTX.mk ([] : List Nat) []).octx)
            (xorBytes (blockKey prefixHash [0x6b, 0x65, 0x79]) opad)
    ∧ (xorBytes (blockKey prefixHash [0x6b, 0x65, 0x79]) opad).length = 128) :=
  ⟨prefixEngine_contract,
    C12_update_leaves_outer_context prefixEngine prefixHash prefixEngine_contract ⟨[1], [2]⟩
      ⟨[], []⟩ [3, 4] [0x6b, 0x65, 0x79] [[5], [6, 7]]⟩

theorem zeroExtend_append_zeros (K : List Nat) (n : Nat) (h : K.length + n ≤ 128) :
    zeroExtend (K ++ List.replicate n 0) = zeroExtend K := by
  unfold zeroExtend
  rw [List.append_assoc, ← List.replicate_add, List.length_append, List.length_replicate]
  congr 2
  omega

/-- The context left by `HMACSHA512Init` is the same for a key and for the key followed
by zero bytes, within the block length, whatever the engine. -/
theorem init_context_append_zeros {σ : Type} (E : SHA512Engine σ) (c : HMACSHA512CTX σ)
    (K : List Nat) (n : Nat) (h : K.length + n ≤ 128) :
    (HMACSHA512Init E c (K ++ List.replicate n 0)).context = (HMACSHA512Init E c K).context := by
  have hl : (K ++ List.replicate n 0).length ≤ 128 := by simp; omega
  rw [init_context_short E c _ hl, init_context_short E c K (by omega),
    xorKey_fill _ _ hl, xorKey_fill _ _ hl, xorKey_fill K _ (by omega),
    xorKey_fill K _ (by omega), zeroExtend_append_zeros K n h]

/-- **C20.** For every message `m` and every key `K` shorter than 128 bytes,
`HMACSHA512(m, K ∥ 0x00) = HMACSHA512(m, K)`, and more generally appending `n` zero bytes
to a key leaves the tag unchanged as long as `|K| + n ≤ 128`: the context left by
`HMACSHA512Init` is the same for both keys, for any engine, and with an engine meeting
the streaming contract the tags agree whatever the context records held before. -/
theorem C20_zero_extended_key_same_tag {σ : Type} (E : SHA512Engine σ)
    (H : List Nat → List Nat) (hE : StreamingContract E H) (c c' : HMACSHA512CTX σ)
    (m K : List Nat) (n : Nat) (hK : K.length < 128) (hn : K.length + n ≤ 128) :
    HMACSHA512 E c m (K ++ [0x00]) = HMACSHA512 E c' m K
    ∧ HMACSHA512 E c m (K ++ List.replicate n 0) = HMACSHA512 E c' m K
    ∧ (HMACSHA512Init E c (K ++ [0x00])).context = (HMACSHA512Init E c K).context
    ∧ (HMACSHA512Init E c (K ++ List.replicate n 0)).context
        = (HMACSHA512Init E c K).context := by
  have h1 := init_context_append_zeros E c K 1 (by omega)
  have hn' := init_context_append_zeros E c K n hn
  have e1 : HMACSHA512 E c m (K ++ List.replicate 1 0) = HMACSHA512 E c m K := by
    unfold HMACSHA512
    simp only []
    rw [h1]
  have en : HMACSHA512 E c m (K ++ List.replicate n 0) = HMACSHA512 E c m K := by
    unfold HMACSHA512
    simp only []
    rw [hn']
  have hcc : HMACSHA512 E c m K = HMACSHA512 E c' m K := by
    rw [HMACSHA512_eq hE, HMACSHA512_eq hE]
  exact ⟨e1.trans hcc, en.trans hcc, h1, hn'⟩

/-- Witness of C20: the engine `prefixEngine`, the key "key" and five zero bytes. -/
theorem C20_zero_extended_key_same_tag_witness :
    StreamingContract prefixEngine prefixHash ∧
    ([0x6b, 0x65, 0x79] : List Nat).length < 128 ∧
    ([0x6b, 0x65, 0x79] : List Nat).length + 5 ≤ 128 ∧
    (HMACSHA512 prefixEngine ⟨[], []⟩ [1, 2, 3] ([0x6b, 0x65, 0x79] ++ [0x00])
        = HMACSHA512 prefixEngine ⟨[9], [8]⟩ [1, 2, 3] [0x6b, 0x65, 0x79]
    ∧ HMACSHA512 prefixEngine ⟨[], []⟩ [1, 2, 3] ([0x6b, 0x65, 0x79] ++ List.replicate 5 0)
        = HMACSHA512 prefixEngine ⟨[9], [8]⟩ [1, 2, 3] [0x6b, 0x65, 0x79]
    ∧ (HMACSHA512Init prefixEngine ⟨[], []⟩ ([0x6b, 0x65, 0x79] ++ [0x00])).context
        = (HMACSHA512Init prefixEngine ⟨[], []⟩ [0x6b, 0x65, 0x79]).context
    ∧ (HMACSHA512Init prefixEngine ⟨[], []⟩ ([0x6b, 0x65, 0x79] ++ List.replicate 5 0)).context
        = (HMACSHA512Init prefixEngine ⟨[], []⟩ [0x6b, 0x65, 0x79]).context) :=
  ⟨prefixEngine_contract, by decide, by decide,
    C20_zero_extended_key_same_tag prefixEngine prefixHash prefixEngine_contract ⟨[], []⟩
      ⟨[9], [8]⟩ [1, 2, 3] [0x6b, 0x65, 0x79] 5 (by decide) (by decide)⟩

/-! ## The key-derivation wrappers -/

/-- **C13.** For pairwise distinct `EFBIG`, `EINVAL`, `ENOMEM`: the scrypt wrapper fails
if and only if `crypto_scrypt` returns a non-zero result; a failure is `runtime_error`
(invalid parameter) when `errno` is `EINVAL`, `length_error` (resource limit) when
`errno` is `EFBIG` or `ENOMEM`, and `bad_alloc` (allocation failure) for every other
`errno`; and when the result is 0 no error is raised, whatever `errno` holds, and the
output buffer is returned. -/
theorem C13_scrypt_error_categories (codes : ErrnoCodes)
    (crypto_scrypt : List Nat → List Nat → Nat → Nat → Nat → List Nat → ScryptCall)
    (data salt : List Nat) (N p r length : Nat)
    (h1 : codes.EFBIG ≠ codes.EINVAL) (h2 : codes.EFBIG ≠ codes.ENOMEM)
    (h3 : codes.EINVAL ≠ codes.ENOMEM) :
    ((∃ e, scrypt codes crypto_scrypt data salt N p r length = Except.error e)
        ↔ (crypto_scrypt data salt N r p (List.replicate length 0)).result ≠ 0)
    ∧ (scrypt codes crypto_scrypt data salt N p r length).mapError category
        = scryptOutcome codes (crypto_scrypt data salt N r p (List.replicate length 0))
    ∧ scrypt codes crypto_scrypt data salt N p r length
        = (if (crypto_scrypt data salt N r p (List.replicate length 0)).result = 0 then
            Except.ok (crypto_scrypt data salt N r p (List.replicate length 0)).output
          else if (crypto_scrypt data salt N r p (List.replicate length 0)).errno
              = codes.EINVAL then
            Except.error (HashException.runtime_error "scrypt invalid argument")
          else if (crypto_scrypt data salt N r p (List.replicate length 0)).errno
              = codes.EFBIG then
            Except.error (HashException.length_error "scrypt parameter too large")
          else if (crypto_scrypt data salt N r p (List.replicate length 0)).errno
              = codes.ENOMEM then
            Except.error (HashException.length_error "scrypt address space")
          else Except.error HashException.bad_alloc) := by
  unfold scrypt handle_script_result scryptOutcome
  simp only []
  generalize crypto_scrypt data salt N r p (List.replicate length 0) = call
  by_cases hr : call.result = 0
  · simp [hr, Except.mapError]
  · by_cases e1 : call.errno = codes.EFBIG
    · simp [hr, e1, h1, Except.mapError, category]
    · by_cases e2 : call.errno = codes.EINVAL
      · simp [hr, e2, h1.symm, Except.mapError, category]
      · by_cases e3 : call.errno = codes.ENOMEM
        · simp [hr, e3, h2.symm, h3.symm, Except.mapError, category]
        · simp [hr, e1, e2, e3, Except.mapError, category]

/-- Witness of C13: the Linux values of the three codes and a call of `crypto_scrypt`
that fails with `errno = EINVAL`. -/
theorem C13_scrypt_error_categories_witness :
    linuxCodes.EFBIG ≠ linuxCodes.EINVAL ∧ linuxCodes.EFBIG ≠ linuxCodes.ENOMEM
    ∧ linuxCodes.EINVAL ≠ linuxCodes.ENOMEM
    ∧ (((∃ e, scrypt linuxCodes (fun _ _ _ _ _ out => ⟨-1, out, 22⟩) [1] [2] 3 1 1 4
          = Except.error e)
        ↔ (ScryptCall.mk (-1) (List.replicate 4 0) 22).result ≠ 0)
    ∧ (scrypt linuxCodes (fun _ _ _ _ _ out => ⟨-1, out, 22⟩) [1] [2] 3 1 1 4).mapError
          category
        = scryptOutcome linuxCodes (ScryptCall.mk (-1) (List.replicate 4 0) 22)
    ∧ scrypt linuxCodes (fun _ _ _ _ _ out => ⟨-1, out, 22⟩) [1] [2] 3 1 1 4
        = (if (ScryptCall.mk (-1) (List.replicate 4 0) 22).result = 0 then
            Except.ok (ScryptCall.mk (-1) (List.replicate 4 0) 22).output
          else if (ScryptCall.mk (-1) (List.replicate 4 0) 22).errno = linuxCodes.EINVAL then
            Except.error (HashException.runtime_error "scrypt invalid argument")
          else if (ScryptCall.mk (-1) (List.replicate 4 0) 22).errno = linuxCodes.EFBIG then
            Except.error (HashException.length_error "scrypt parameter too large")
          else if (ScryptCall.mk (-1) (List.replicate 4 0) 22).errno = linuxCodes.ENOMEM then
            Except.error (HashException.length_error "scrypt address space")
          else Except.error HashException.bad_alloc)) :=
  ⟨by decide, by decide, by decide,
    C13_scrypt_error_categories linuxCodes (fun _ _ _ _ _ out => ⟨-1, out, 22⟩) [1] [2] 3 1 1 4
      (by decide) (by decide) (by decide)⟩

/-- Counterexample to C14 as stated: when `pkcs5_pbkdf2` returns a non-zero result,
`pkcs5_pbkdf2_hmac_sha512` raises `bad_alloc`. -/
theorem C14_pbkdf2_sha512_raises :
    pkcs5_pbkdf2_hmac_sha512 (fun _ _ key _ _ => (-1, key)) (List.replicate 64 0)
      [0x70, 0x77] [0x73] 0 = Except.error HashException.bad_alloc := by
  rfl

/-- **C14 (amended).** `pbkdf2_hmac_sha256` has no error outcome: for every passphrase,
salt, iteration count and length it returns the content of its output vector, whatever
`pbkdf2_sha256` returns.  `pkcs5_pbkdf2_hmac_sha512` returns the 64-byte key buffer when
`pkcs5_pbkdf2` returns 0 and raises `bad_alloc` when `pkcs5_pbkdf2` returns a non-zero
result. -/
theorem C14_pbkdf2_wrappers
    (pkcs5_pbkdf2 : List Nat → List Nat → List Nat → Nat → Nat → Int × List Nat)
    (pbkdf2_sha256 : List Nat → List Nat → Nat → List Nat → Nat → Int × List Nat)
    (hash passphrase salt : List Nat) (iterations length : Nat)
    (hhash : hash.length = 64)
    (hkey : ∀ p s key n i, (pkcs5_pbkdf2 p s key n i).2.length = key.length) :
    pkcs5_pbkdf2_hmac_sha512 pkcs5_pbkdf2 hash passphrase salt iterations
        = (if (pkcs5_pbkdf2 passphrase salt hash 64 iterations).1 = 0 then
            Except.ok (pkcs5_pbkdf2 passphrase salt hash 64 iterations).2
          else Except.error HashException.bad_alloc)
    ∧ (pkcs5_pbkdf2 passphrase salt hash 64 iterations).2.length = 64
    ∧ pbkdf2_hmac_sha256 pbkdf2_sha256 passphrase salt iterations length
        = Except.ok
            (pbkdf2_sha256 passphrase salt iterations (List.replicate length 0) length).2 := by
  refine ⟨?_, ?_, rfl⟩
  · unfold pkcs5_pbkdf2_hmac_sha512
    rw [hhash]
    by_cases h : (pkcs5_pbkdf2 passphrase salt hash 64 iterations).1 = 0
    · simp [h]
    · simp [h]
  · rw [hkey, hhash]

/-- Witness of the amended C14: routines that fill the buffer they are given and
return 0. -/
theorem C14_pbkdf2_wrappers_witness :
    (List.replicate 64 7).length = 64
    ∧ (∀ (p s key : List Nat) (n i : Nat),
        ((fun (_ _ key : List Nat) (_ _ : Nat) => ((0 : Int), key.map fun _ => 1)) p s key n i).2.length
          = key.length)
    ∧ (pkcs5_pbkdf2_hmac_sha512 (fun _ _ key _ _ => (0, key.map fun _ => 1))
          (List.replicate 64 7) [0x70, 0x77] [0x73] 2048
        = (if ((fun (_ _ key : List Nat) (_ _ : Nat) => ((0 : Int), key.map fun _ => 1))
              [0x70, 0x77] [0x73] (List.replicate 64 7) 64 2048).1 = 0 then
            Except.ok ((fun (_ _ key : List Nat) (_ _ : Nat) => ((0 : Int), key.map fun _ => 1))
              [0x70, 0x77] [0x73] (List.replicate 64 7) 64 2048).2
          else Except.error HashException.bad_alloc)
    ∧ ((fun (_ _ key : List Nat) (_ _ : Nat) => ((0 : Int), key.map fun _ => 1))
          [0x70, 0x77] [0x73] (List.replicate 64 7) 64 2048).2.length = 64
    ∧ pbkdf2_hmac_sha256 (fun _ _ _ out _ => (0, out.map fun _ => 2)) [0x70, 0x77] [0x73] 1 32
        = Except.ok ((fun (_ _ : List Nat) (_ : Nat) (out : List Nat) (_ : Nat) =>
              ((0 : Int), out.map fun _ => 2))
            [0x70, 0x77] [0x73] 1 (List.replicate 32 0) 32).2) :=
  ⟨by decide, fun _ _ key _ _ => List.length_map key _,
    C14_pbkdf2_wrappers (fun _ _ key _ _ => (0, key.map fun _ => 1))
      (fun _ _ _ out _ => (0, out.map fun _ => 2)) (List.replicate 64 7) [0x70, 0x77] [0x73]
      2048 32 (by decide) (fun _ _ key _ _ => List.length_map key _)⟩

/-! ## The optimised macros and the textbook functions -/

theorem testBit_of_lt_32 (z i : Nat) (hz : z < 2 ^ 32) (hi : 32 ≤ i) : z.testBit i = false :=
  Nat.testBit_lt_two_pow (Nat.lt_of_lt_of_le hz (Nat.pow_le_pow_right (by decide) hi))

theorem testBit_not32 (x i : Nat) (hx : x < 2 ^ 32) :
    (not32 x).testBit i = (decide (i < 32) && !x.testBit i) := by
  have h : not32 x = 2 ^ 32 - (x + 1) := by unfold not32; omega
  rw [h, Nat.testBit_two_pow_sub_succ hx]

theorem Ch_eq_fipsCh (x y z : Nat) (hx : x < 2 ^ 32) (hz : z < 2 ^ 32) :
    Ch x y z = fipsCh x y z := by
  apply Nat.eq_of_testBit_eq
  intro i
  simp only [Ch, fipsCh, Nat.testBit_xor, Nat.testBit_and, testBit_not32 x i hx]
  by_cases hi : i < 32
  · simp only [hi, decide_True, Bool.true_and]
    cases x.testBit i <;> cases y.testBit i <;> cases z.testBit i <;> rfl
  · rw [testBit_of_lt_32 z i hz (by omega)]
    simp [hi]

theorem Maj_eq_fipsMaj (x y z : Nat) : Maj x y z = fipsMaj x y z := by
  apply Nat.eq_of_testBit_eq
  intro i
  simp only [Maj, fipsMaj, Nat.testBit_xor, Nat.testBit_and, Nat.testBit_or]
  cases x.testBit i <;> cases y.testBit i <;> cases z.testBit i <;> rfl

theorem ROTR_eq_fipsROTR (x n : Nat) : ROTR x n = fipsROTR n x := by
  apply Nat.eq_of_testBit_eq
  intro i
  simp only [ROTR, fipsROTR, u32, Nat.testBit_mod_two_pow, Nat.testBit_or]
  by_cases hi : i < 32 <;> simp [hi]

theorem S0_eq (x : Nat) : S0 x = bigSigma0 x := by
  simp only [S0, bigSigma0, ROTR_eq_fipsROTR]

theorem S1_eq (x : Nat) : S1 x = bigSigma1 x := by
  simp only [S1, bigSigma1, ROTR_eq_fipsROTR]

theorem s0_eq (x : Nat) : s0 x = smallSigma0 x := by
  simp only [s0, smallSigma0, ROTR_eq_fipsROTR, SHR, fipsSHR]

theorem s1_eq (x : Nat) : s1 x = smallSigma1 x := by
  simp only [s1, smallSigma1, ROTR_eq_fipsROTR, SHR, fipsSHR]

/-- **C18.** For all 32-bit words `x`, `y`, `z` the optimised macros agree with the
standard definitions: `Ch(x,y,z) = (x & (y ^ z)) ^ z` equals `(x & y) ^ (~x & z)`, and
`Maj(x,y,z) = (x & (y | z)) | (y & z)` equals `(x & y) ^ (x & z) ^ (y & z)`. -/
theorem C18_Ch_Maj_standard (x y z : Nat) (hx : x < 2 ^ 32) (hy : y < 2 ^ 32)
    (hz : z < 2 ^ 32) :
    (x &&& (y ^^^ z)) ^^^ z = (x &&& y) ^^^ ((2 ^ 32 - 1 - x) &&& z)
    ∧ (x &&& (y ||| z)) ||| (y &&& z) = (x &&& y) ^^^ (x &&& z) ^^^ (y &&& z)
    ∧ Ch x y z = (x &&& (y ^^^ z)) ^^^ z
    ∧ Maj x y z = (x &&& (y ||| z)) ||| (y &&& z)
    ∧ Ch x y z = fipsCh x y z
    ∧ Maj x y z = fipsMaj x y z := by
  have _ := hy
  exact ⟨Ch_eq_fipsCh x y z hx hz, Maj_eq_fipsMaj x y z, rfl, rfl, Ch_eq_fipsCh x y z hx hz,
    Maj_eq_fipsMaj x y z⟩

/-- Witness of C18: three 32-bit words. -/
theorem C18_Ch_Maj_standard_witness :
    0x510E527F < 2 ^ 32 ∧ 0x9B05688C < 2 ^ 32 ∧ 0x1F83D9AB < 2 ^ 32
    ∧ ((0x510E527F &&& (0x9B05688C ^^^ 0x1F83D9AB)) ^^^ 0x1F83D9AB
        = (0x510E527F &&& 0x9B05688C) ^^^ ((2 ^ 32 - 1 - 0x510E527F) &&& 0x1F83D9AB)
    ∧ (0x510E527F &&& (0x9B05688C ||| 0x1F83D9AB)) ||| (0x9B05688C &&& 0x1F83D9AB)
        = (0x510E527F &&& 0x9B05688C) ^^^ (0x510E527F &&& 0x1F83D9AB)
            ^^^ (0x9B05688C &&& 0x1F83D9AB)
    ∧ Ch 0x510E527F 0x9B05688C 0x1F83D9AB
        = (0x510E527F &&& (0x9B05688C ^^^ 0x1F83D9AB)) ^^^ 0x1F83D9AB
    ∧ Maj 0x510E527F 0x9B05688C 0x1F83D9AB
        = (0x510E527F &&& (0x9B05688C ||| 0x1F83D9AB)) ||| (0x9B05688C &&& 0x1F83D9AB)
    ∧ Ch 0x510E527F 0x9B05688C 0x1F83D9AB = fipsCh 0x510E527F 0x9B05688C 0x1F83D9AB
    ∧ Maj 0x510E527F 0x9B05688C 0x1F83D9AB = fipsMaj 0x510E527F 0x9B05688C 0x1F83D9AB) :=
  ⟨by decide, by decide, by decide,
    C18_Ch_Maj_standard 0x510E527F 0x9B05688C 0x1F83D9AB (by decide) (by decide) (by decide)⟩

/-! ## The unrolled rounds and the textbook loop -/

/-- The constants of the 64 `RNDr` lines are the constants of FIPS 180-4, computed from
the cube roots of the first 64 primes, in order. -/
theorem rounds_eq_fipsK : rounds = (List.range 64).map fun t => (t, fipsK.getD t 0) := by
  decide

/-- On the first 64 primes `icbrt` is the integer cube root of `p · 2 ^ 96`. -/
theorem icbrt_firstPrimes :
    ∀ p ∈ firstPrimes,
      icbrt (p * 2 ^ 96) ^ 3 ≤ p * 2 ^ 96 ∧ p * 2 ^ 96 < (icbrt (p * 2 ^ 96) + 1) ^ 3 := by
  decide

theorem getD_lt_of_forall (l : List Nat) (n i : Nat) (hn : 0 < n) (h : ∀ b ∈ l, b < n) :
    l.getD i 0 < n := by
  rw [List.getD_eq_getElem?_getD]
  by_cases hi : i < l.length
  · rw [List.getElem?_eq_getElem hi]
    exact h _ (List.getElem_mem hi)
  · rw [List.getElem?_eq_none (by omega)]
    exact hn

theorem be32dec_vect_eq_fipsM (block : List Nat) (hb : ∀ b ∈ block, b < 256) :
    be32dec_vect block SHA256_BLOCK_LENGTH = fipsM block := by
  unfold be32dec_vect fipsM
  apply List.map_congr_left
  intro i _
  have h0 := getD_lt_of_forall block 256 (4 * i) (by decide) hb
  have h1 := getD_lt_of_forall block 256 (4 * i + 1) (by decide) hb
  have h2 := getD_lt_of_forall block 256 (4 * i + 2) (by decide) hb
  have h3 := getD_lt_of_forall block 256 (4 * i + 3) (by decide) hb
  simp only [be32dec, u32, Nat.shiftLeft_eq, List.getD_eq_getElem?_getD, List.getElem?_drop,
    Nat.mul_comm i 4, Nat.add_zero] at h0 h1 h2 h3 ⊢
  generalize (block[4 * i]?).getD 0 = p0 at h0 ⊢
  generalize (block[4 * i + 1]?).getD 0 = p1 at h1 ⊢
  generalize (block[4 * i + 2]?).getD 0 = p2 at h2 ⊢
  generalize (block[4 * i + 3]?).getD 0 = p3 at h3 ⊢
  norm_num
  omega

theorem schedule_eq_fipsSchedule (block : List Nat) (hb : ∀ b ∈ block, b < 256) :
    schedule block = fipsSchedule block := by
  unfold schedule fipsSchedule
  rw [be32dec_vect_eq_fipsM block hb]
  simp only [s0_eq, s1_eq, u32]

/-- One `RNDr` on the register file is one step of the textbook loop on the working
variables. -/
theorem RNDr_workingVariables (s0 s1 s2 s3 s4 s5 s6 s7 : Nat) (W : List Nat) (t k : Nat)
    (h0 : s0 < 2 ^ 32) (h1 : s1 < 2 ^ 32) (h2 : s2 < 2 ^ 32) (h3 : s3 < 2 ^ 32)
    (h4 : s4 < 2 ^ 32) (h5 : s5 < 2 ^ 32) (h6 : s6 < 2 ^ 32) (h7 : s7 < 2 ^ 32)
    (ht : t < 64) :
    workingVariables (RNDr [s0, s1, s2, s3, s4, s5, s6, s7] W t k) (t + 1)
      = fipsRound (workingVariables [s0, s1, s2, s3, s4, s5, s6, s7] t) k (W.getD t 0) := by
  have c0 := fun y z => Ch_eq_fipsCh s0 y z h0
  have c1 := fun y z => Ch_eq_fipsCh s1 y z h1
  have c2 := fun y z => Ch_eq_fipsCh s2 y z h2
  have c3 := fun y z => Ch_eq_fipsCh s3 y z h3
  have c4 := fun y z => Ch_eq_fipsCh s4 y z h4
  have c5 := fun y z => Ch_eq_fipsCh s5 y z h5
  have c6 := fun y z => Ch_eq_fipsCh s6 y z h6
  have c7 := fun y z => Ch_eq_fipsCh s7 y z h7
  interval_cases t <;>
    simp only [RNDr, workingVariables, fipsRound, List.getD_cons_zero, List.getD_cons_succ,
      List.set_cons_zero, List.set_cons_succ, Nat.reduceSub, Nat.reduceMod, Nat.reduceAdd,
      S0_eq, S1_eq, Maj_eq_fipsMaj, u32,
      c0 _ _ h0, c0 _ _ h1, c0 _ _ h2, c0 _ _ h3, c0 _ _ h4, c0 _ _ h5, c0 _ _ h6, c0 _ _ h7,
      c1 _ _ h0, c1 _ _ h1, c1 _ _ h2, c1 _ _ h3, c1 _ _ h4, c1 _ _ h5, c1 _ _ h6, c1 _ _ h7,
      c2 _ _ h0, c2 _ _ h1, c2 _ _ h2, c2 _ _ h3, c2 _ _ h4, c2 _ _ h5, c2 _ _ h6, c2 _ _ h7,
      c3 _ _ h0, c3 _ _ h1, c3 _ _ h2, c3 _ _ h3, c3 _ _ h4, c3 _ _ h5, c3 _ _ h6, c3 _ _ h7,
      c4 _ _ h0, c4 _ _ h1, c4 _ _ h2, c4 _ _ h3, c4 _ _ h4, c4 _ _ h5, c4 _ _ h6, c4 _ _ h7,
      c5 _ _ h0, c5 _ _ h1, c5 _ _ h2, c5 _ _ h3, c5 _ _ h4, c5 _ _ h5, c5 _ _ h6, c5 _ _ h7,
      c6 _ _ h0, c6 _ _ h1, c6 _ _ h2, c6 _ _ h3, c6 _ _ h4, c6 _ _ h5, c6 _ _ h6, c6 _ _ h7,
      c7 _ _ h0, c7 _ _ h1, c7 _ _ h2, c7 _ _ h3, c7 _ _ h4, c7 _ _ h5, c7 _ _ h6, c7 _ _ h7,
      Nat.add_right_comm _ (W.getD _ 0) k]

/-- A list of eight words below `2 ^ 32`. -/
theorem eight_words (S : List Nat) (hlen : S.length = 8) (hb : ∀ w ∈ S, w < 2 ^ 32) :
    ∃ s0 s1 s2 s3 s4 s5 s6 s7, S = [s0, s1, s2, s3, s4, s5, s6, s7]
      ∧ s0 < 2 ^ 32 ∧ s1 < 2 ^ 32 ∧ s2 < 2 ^ 32 ∧ s3 < 2 ^ 32
      ∧ s4 < 2 ^ 32 ∧ s5 < 2 ^ 32 ∧ s6 < 2 ^ 32 ∧ s7 < 2 ^ 32 := by
  match S, hlen, hb with
  | [s0, s1, s2, s3, s4, s5, s6, s7], _, hb =>
    exact ⟨s0, s1, s2, s3, s4, s5, s6, s7, rfl, hb _ (by simp), hb _ (by simp),
      hb _ (by simp), hb _ (by simp), hb _ (by simp), hb _ (by simp), hb _ (by simp),
      hb _ (by simp)⟩

theorem RNDr_length (S W : List Nat) (t k : Nat) : (RNDr S W t k).length = S.length := by
  simp [RNDr]

theorem RNDr_bounded (S W : List Nat) (t k : Nat) (hb : ∀ w ∈ S, w < 2 ^ 32) :
    ∀ w ∈ RNDr S W t k, w < 2 ^ 32 := by
  intro w hw
  unfold RNDr at hw
  simp only [] at hw
  rcases List.mem_or_eq_of_mem_set hw with h | h
  · rcases List.mem_or_eq_of_mem_set h with h' | h'
    · exact hb w h'
    · rw [h']; exact Nat.mod_lt _ (by decide)
  · rw [h]; exact Nat.mod_lt _ (by decide)

theorem workingVariables_zero (S : List Nat) (hlen : S.length = 8) :
    workingVariables S 0 = S := by
  match S, hlen with
  | [s0, s1, s2, s3, s4, s5, s6, s7], _ => rfl

theorem workingVariables_64 (S : List Nat) (hlen : S.length = 8) :
    workingVariables S 64 = S := by
  match S, hlen with
  | [s0, s1, s2, s3, s4, s5, s6, s7], _ => rfl

/-- After `n` rounds the register file, read at the rotated indices, holds the working
variables of the textbook loop after `n` steps. -/
theorem rounds_invariant (W S : List Nat) (hlen : S.length = 8)
    (hb : ∀ w ∈ S, w < 2 ^ 32) (n : Nat) (hn : n ≤ 64) :
    ((List.range n).foldl (fun S t => RNDr S W t (fipsK.getD t 0)) S).length = 8
    ∧ (∀ w ∈ (List.range n).foldl (fun S t => RNDr S W t (fipsK.getD t 0)) S, w < 2 ^ 32)
    ∧ workingVariables ((List.range n).foldl (fun S t => RNDr S W t (fipsK.getD t 0)) S) n
        = (List.range n).foldl (fun v t => fipsRound v (fipsK.getD t 0) (W.getD t 0)) S := by
  induction n with
  | zero => exact ⟨hlen, hb, workingVariables_zero S hlen⟩
  | succ n ih =>
    obtain ⟨hl, hbn, hv⟩ := ih (by omega)
    simp only [List.range_succ, List.foldl_append, List.foldl_cons, List.foldl_nil]
    refine ⟨by rw [RNDr_length, hl], RNDr_bounded _ _ _ _ hbn, ?_⟩
    rw [← hv]
    obtain ⟨s0, s1, s2, s3, s4, s5, s6, s7, hS, h0, h1, h2, h3, h4, h5, h6, h7⟩ :=
      eight_words _ hl hbn
    rw [hS]
    exact RNDr_workingVariables s0 s1 s2 s3 s4 s5 s6 s7 W n _ h0 h1 h2 h3 h4 h5 h6 h7
      (by omega)

theorem final_addition (state S : List Nat) (hs : state.length = 8) (hS : S.length = 8) :
    ((List.range 8).map fun i => u32 (state.getD i 0 + S.getD i 0))
      = List.zipWith (fun x y => (x + y) % 2 ^ 32) S state := by
  match state, hs, S, hS with
  | [a0, a1, a2, a3, a4, a5, a6, a7], _, [b0, b1, b2, b3, b4, b5, b6, b7], _ =>
    simp [List.range_succ, u32, Nat.add_comm]

/-- Trial division decides primality. -/
theorem isPrime_iff (n : Nat) : isPrime n = true ↔ n.Prime := by
  rw [Nat.prime_def_lt']
  simp only [isPrime, Bool.and_eq_true, decide_eq_true_eq, List.all_eq_true, List.mem_range,
    Bool.or_eq_true, ne_eq, Nat.dvd_iff_mod_eq_zero]
  constructor
  · rintro ⟨h2, h⟩
    refine ⟨h2, fun m hm hlt => ?_⟩
    rcases h m hlt with h' | h'
    · omega
    · exact h'
  · rintro ⟨h2, h⟩
    refine ⟨h2, fun d hd => ?_⟩
    by_cases h' : d < 2
    · exact Or.inl h'
    · exact Or.inr (h d (by omega) hd)

/-- The list `firstPrimes` holds the primes below 312: there are 64 of them. -/
theorem mem_firstPrimes (p : Nat) : p ∈ firstPrimes ↔ p.Prime ∧ p < 312 := by
  simp only [firstPrimes, List.mem_filter, List.mem_range, isPrime_iff]
  exact And.comm

/-- **C17.** `internalSHA256Transform` is the compression function of FIPS 180-4: for
every state of eight 32-bit words and every block of 64 bytes, the 64 unrolled `RNDr`
steps on the rotated register indices, followed by the word-wise addition into `state`
modulo `2 ^ 32`, give the result of the textbook loop over the big-endian decoded and
expanded message schedule `W[0..63]` with the standard round constants (the first 32
bits of the fractional parts of the cube roots of the first 64 primes) and the textbook
`Ch` and `Maj`. -/
theorem C17_transform_is_fips_compression (state block : List Nat)
    (hlen : state.length = 8) (hwords : ∀ w ∈ state, w < 2 ^ 32)
    (hblock : block.length = 64) (hbytes : ∀ b ∈ block, b < 256) :
    internalSHA256Transform state block = fipsCompress state block
    ∧ rounds.map Prod.snd = fipsK
    ∧ (∀ p ∈ firstPrimes,
        icbrt (p * 2 ^ 96) ^ 3 ≤ p * 2 ^ 96 ∧ p * 2 ^ 96 < (icbrt (p * 2 ^ 96) + 1) ^ 3)
    ∧ firstPrimes.length = 64
    ∧ (∀ p, p ∈ firstPrimes ↔ p.Prime ∧ p < 312) := by
  have _ := hblock
  refine ⟨?_, by decide, icbrt_firstPrimes, by decide, mem_firstPrimes⟩
  unfold internalSHA256Transform fipsCompress
  simp only []
  rw [schedule_eq_fipsSchedule block hbytes, rounds_eq_fipsK, List.foldl_map,
    List.take_of_length_le (by omega)]
  obtain ⟨hl, _, hv⟩ := rounds_invariant (fipsSchedule block) state hlen hwords 64 (by omega)
  rw [workingVariables_64 _ hl] at hv
  rw [← hv]
  exact final_addition state _ hlen hl

/-- Witness of C17: the initial state and the all-zero block. -/
theorem C17_transform_is_fips_compression_witness :
    initialState.length = 8 ∧ (∀ w ∈ initialState, w < 2 ^ 32)
    ∧ (List.replicate 64 0).length = 64 ∧ (∀ b ∈ List.replicate 64 0, b < 256)
    ∧ (internalSHA256Transform initialState (List.replicate 64 0)
        = fipsCompress initialState (List.replicate 64 0)
    ∧ rounds.map Prod.snd = fipsK
    ∧ (∀ p ∈ firstPrimes,
        icbrt (p * 2 ^ 96) ^ 3 ≤ p * 2 ^ 96 ∧ p * 2 ^ 96 < (icbrt (p * 2 ^ 96) + 1) ^ 3)
    ∧ firstPrimes.length = 64
    ∧ (∀ p, p ∈ firstPrimes ↔ p.Prime ∧ p < 312)) :=
  ⟨by decide, by decide, by decide, by decide,
    C17_transform_is_fips_compression initialState (List.replicate 64 0) (by decide)
      (by decide) (by decide) (by decide)⟩

/-! ## The accesses of `internalSHA256Update` -/

/-- The traced loop consumes every complete block of `input + off`, reading one block
at each of the offsets `off, off + 64, …`. -/
theorem transformLoopTraced_eq (fuel : Nat) :
    ∀ (s input : List Nat) (off length : Nat) (trace : List Access),
      length / 64 ≤ fuel → off + length = input.length →
      transformLoopTraced fuel s input off length trace
        = (compress s (input.drop off), off + 64 * (length / 64), length % 64,
            trace ++ (List.range (length / 64)).map fun i => Access.transformInput (off + 64 * i))
    := by
  induction fuel with
  | zero =>
    intro s input off length trace hf hl
    have hq : length / 64 = 0 := by omega
    have hlt : (input.drop off).length < 64 := by simp; omega
    have hm : length % 64 = length := by omega
    simp [transformLoopTraced, hq, hm, compress_short _ _ hlt]
  | succ n ih =>
    intro s input off length trace hf hl
    unfold transformLoopTraced
    by_cases hge : length ≥ 64
    · rw [if_pos hge, ih _ _ _ _ _ (by omega) (by omega)]
      have hq : length / 64 = (length - 64) / 64 + 1 := by omega
      have hd : 64 ≤ (input.drop off).length := by simp; omega
      rw [compress_cons s (input.drop off) hd, List.drop_drop, hq, List.range_succ_eq_map]
      simp only [List.map_cons, List.map_map, List.append_assoc, List.singleton_append,
        Nat.mul_zero, Nat.add_zero]
      have e1 : off + 64 + 64 * ((length - 64) / 64) = off + 64 * ((length - 64) / 64 + 1) := by
        omega
      have e2 : (length - 64) % 64 = length % 64 := by omega
      have e3 : (List.range ((length - 64) / 64)).map
            (fun i => Access.transformInput (off + 64 + 64 * i))
          = (List.range ((length - 64) / 64)).map
            ((fun i => Access.transformInput (off + 64 * i)) ∘ Nat.succ) := by
        apply List.map_congr_left
        intro i _
        show Access.transformInput (off + 64 + 64 * i) = Access.transformInput (off + 64 * (i + 1))
        congr 1
        omega
      rw [e1, e2, e3]
    · rw [if_neg hge]
      have hq : length / 64 = 0 := by omega
      have hlt : (input.drop off).length < 64 := by simp; omega
      have hm : length % 64 = length := by omega
      simp [hq, hm, compress_short _ _ hlt]

/-- An update that fits in the free part of the buffer makes one copy. -/
theorem updateTraced_short (c : SHA256CTX) (input : List Nat)
    (h : input.length < 64 - occupancy c) :
    internalSHA256UpdateTraced c input
      = (internalSHA256Update c input, [Access.copy (occupancy c) 0 input.length]) := by
  unfold internalSHA256UpdateTraced internalSHA256Update
  simp only []
  rw [show (c.count.getD 1 0 >>> 3) &&& 0x3f = occupancy c from rfl, if_pos h, if_pos h]

/-- An update that fills the buffer completes it, compresses it, compresses every
further complete block from the input, and copies the rest to the start of the buffer. -/
theorem updateTraced_long (c : SHA256CTX) (input : List Nat)
    (h : ¬ input.length < 64 - occupancy c) :
    internalSHA256UpdateTraced c input
      = (internalSHA256Update c input,
          [Access.copy (occupancy c) 0 (64 - occupancy c), Access.transformBuf]
            ++ ((List.range ((input.length - (64 - occupancy c)) / 64)).map fun i =>
                Access.transformInput (64 - occupancy c + 64 * i))
            ++ [Access.copy 0
                (64 - occupancy c + 64 * ((input.length - (64 - occupancy c)) / 64))
                ((input.length - (64 - occupancy c)) % 64)]) := by
  have hr := occupancy_lt c
  unfold internalSHA256UpdateTraced internalSHA256Update
  simp only []
  rw [show (c.count.getD 1 0 >>> 3) &&& 0x3f = occupancy c from rfl, if_neg h, if_neg h,
    transformLoopTraced_eq _ _ _ _ _ _ (Nat.div_le_self _ _) (by omega),
    transformLoop_eq _ _ _ (Nat.div_le_self _ _)]
  simp only [List.length_drop, List.drop_drop]
  have hlen : input.length - (64 - occupancy c + 64 * ((input.length - (64 - occupancy c)) / 64))
      = (input.length - (64 - occupancy c)) % 64 := by
    omega
  rw [hlen]

/-- Recording the accesses does not change what the update computes. -/
theorem updateTraced_fst (c : SHA256CTX) (input : List Nat) :
    (internalSHA256UpdateTraced c input).1 = internalSHA256Update c input := by
  by_cases h : input.length < 64 - occupancy c
  · rw [updateTraced_short c input h]
  · rw [updateTraced_long c input h]

/-- Every access of an update is in bounds. -/
theorem updateTraced_inBounds (c : SHA256CTX) (input : List Nat) :
    ∀ a ∈ (internalSHA256UpdateTraced c input).2, a.inBounds input.length = true := by
  have hr := occupancy_lt c
  intro a ha
  by_cases h : input.length < 64 - occupancy c
  · rw [updateTraced_short c input h] at ha
    simp only [List.mem_singleton] at ha
    subst ha
    simp only [Access.inBounds, SHA256_BLOCK_LENGTH, Bool.and_eq_true, decide_eq_true_eq]
    omega
  · rw [updateTraced_long c input h] at ha
    simp only [List.mem_append, List.mem_cons, List.mem_singleton, List.mem_map,
      List.mem_range, List.not_mem_nil, or_false] at ha
    rcases ha with ((ha | ha) | ⟨i, hi, ha⟩) | ha
    · subst ha
      simp only [Access.inBounds, SHA256_BLOCK_LENGTH, Bool.and_eq_true, decide_eq_true_eq]
      omega
    · subst ha
      simp [Access.inBounds, SHA256_BLOCK_LENGTH]
    · subst ha
      simp only [Access.inBounds, decide_eq_true_eq]
      have := Nat.div_mul_le_self (input.length - (64 - occupancy c)) 64
      have : 64 * (i + 1) ≤ 64 * ((input.length - (64 - occupancy c)) / 64) :=
        Nat.mul_le_mul_left 64 hi
      omega
    · subst ha
      simp only [Access.inBounds, SHA256_BLOCK_LENGTH, Bool.and_eq_true, decide_eq_true_eq]
      omega

/-- The number of calls of the compression function in an update. -/
theorem updateTraced_transforms (c : SHA256CTX) (input : List Nat) :
    (internalSHA256UpdateTraced c input).2.countP Access.isTransform
      = if input.length < 64 - occupancy c then 0
        else 1 + (input.length - (64 - occupancy c)) / 64 := by
  by_cases h : input.length < 64 - occupancy c
  · rw [updateTraced_short c input h, if_pos h]
    rfl
  · rw [updateTraced_long c input h, if_neg h]
    have hall : ((List.range ((input.length - (64 - occupancy c)) / 64)).map fun i =>
        Access.transformInput (64 - occupancy c + 64 * i)).countP Access.isTransform
          = (input.length - (64 - occupancy c)) / 64 := by
      rw [List.countP_map]
      have : (Access.isTransform ∘ fun i => Access.transformInput (64 - occupancy c + 64 * i))
          = fun _ => true := rfl
      rw [this]
      simp
    simp only [List.countP_append, hall]
    simp [List.countP_cons, Access.isTransform]

theorem padTraced_eq (c : SHA256CTX) :
    internalSHA256PadTraced c
      = (internalSHA256Pad c,
          (internalSHA256UpdateTraced c (PAD.take (padLength c))).2,
          (internalSHA256UpdateTraced (internalSHA256Update c (PAD.take (padLength c)))
            (be32enc_vect c.count 8)).2) := by
  unfold internalSHA256PadTraced internalSHA256Pad padLength
  simp only []
  rw [← updateTraced_fst c, ← updateTraced_fst (internalSHA256UpdateTraced c _).1]

theorem padLength_bounds (c : SHA256CTX) :
    1 ≤ padLength c ∧ padLength c ≤ 64 ∧ (occupancy c + padLength c) % 64 = 56 := by
  have hr := occupancy_lt c
  unfold padLength
  rw [show (c.count.getD 1 0 >>> 3) &&& 0x3f = occupancy c from rfl]
  split <;> omega

/-- **C15.** For every SHA-256 context with buffer occupancy `r = (count[1] >> 3) & 0x3f`,
`internalSHA256Pad` feeds `plen` bytes of `PAD`, `plen = 56 - r` when `r < 56` and
`120 - r` otherwise, so `1 ≤ plen ≤ 64`, followed by the eight length bytes taken from the
counter as it was before padding (the big-endian bytes of `count[0]`, then of `count[1]`);
it leaves the buffer occupancy at 0, and it calls the compression function exactly once
when `r < 56` and exactly twice when `56 ≤ r ≤ 63`. -/
theorem C15_padding_blocks (c : SHA256CTX) :
    1 ≤ padLength c ∧ padLength c ≤ 64
    ∧ padLength c = (if occupancy c < 56 then 56 - occupancy c else 120 - occupancy c)
    ∧ occupancy c ≤ 63
    ∧ internalSHA256Pad c
        = internalSHA256Update (internalSHA256Update c (PAD.take (padLength c)))
            (be32enc_vect c.count 8)
    ∧ (PAD.take (padLength c)).length = padLength c
    ∧ be32enc_vect c.count 8 = bigEndian32 (c.count.getD 0 0) ++ bigEndian32 (c.count.getD 1 0)
    ∧ (be32enc_vect c.count 8).length = 8
    ∧ occupancy (internalSHA256Pad c) = 0
    ∧ (internalSHA256PadTraced c).1 = internalSHA256Pad c
    ∧ ((internalSHA256PadTraced c).2.1 ++ (internalSHA256PadTraced c).2.2).countP
          Access.isTransform
        = (if occupancy c < 56 then 1 else 2) := by
  have hr := occupancy_lt c
  obtain ⟨h1, h64, h56⟩ := padLength_bounds c
  have hplen : padLength c
      = (if occupancy c < 56 then 56 - occupancy c else 120 - occupancy c) := rfl
  have hpad : internalSHA256Pad c
      = internalSHA256Update (internalSHA256Update c (PAD.take (padLength c)))
          (be32enc_vect c.count 8) := rfl
  have htake : (PAD.take (padLength c)).length = padLength c := by
    rw [List.length_take, length_PAD]; omega
  have hlen8 : (be32enc_vect c.count 8).length = 8 := by
    rw [length_be32enc_vect]
  have hocc1 : occupancy (internalSHA256Update c (PAD.take (padLength c))) = 56 := by
    rw [update_occupancy, htake, h56]
  refine ⟨h1, h64, hplen, by omega, hpad, htake, ?_, hlen8, ?_, ?_, ?_⟩
  · rw [be32enc_vect_two, be32enc_eq, be32enc_eq]
  · rw [hpad, update_occupancy, hocc1, hlen8]
  · rw [padTraced_eq]
  · rw [padTraced_eq]
    simp only [List.countP_append, updateTraced_transforms, htake, hlen8, hocc1]
    rw [hplen]
    by_cases h : occupancy c < 56
    · simp only [h, if_true]
      have h' : 56 - occupancy c < 64 - occupancy c := by omega
      simp [h']
    · simp only [h, if_false]
      have h' : ¬ 120 - occupancy c < 64 - occupancy c := by omega
      have hq : (120 - occupancy c - (64 - occupancy c)) / 64 = 0 := by omega
      simp [h', hq]

/-- **C19.** Every buffer access of the SHA-256 engine is in bounds: for every context
and every input of length `L`, each `memcpy` of `internalSHA256Update` writes inside
`buf[0 .. 64)` and reads inside `input[0 .. L)`, and each block the compression function
reads from the input lies inside `input[0 .. L)`; in `internalSHA256Pad` the number of
bytes read from the 64-byte table `PAD` is at most 64, and its two updates stay inside
the `plen` bytes of `PAD` and the 8 bytes of `len`. -/
theorem C19_accesses_in_bounds (c : SHA256CTX) (input : List Nat) :
    (∀ a ∈ (internalSHA256UpdateTraced c input).2, a.inBounds input.length = true)
    ∧ (∀ dst src n, Access.copy dst src n ∈ (internalSHA256UpdateTraced c input).2 →
        dst + n ≤ 64 ∧ src + n ≤ input.length)
    ∧ (∀ src, Access.transformInput src ∈ (internalSHA256UpdateTraced c input).2 →
        src + 64 ≤ input.length)
    ∧ (internalSHA256UpdateTraced c input).1 = internalSHA256Update c input
    ∧ padLength c ≤ PAD.length ∧ PAD.length = 64
    ∧ (∀ a ∈ (internalSHA256PadTraced c).2.1, a.inBounds (padLength c) = true)
    ∧ (∀ a ∈ (internalSHA256PadTraced c).2.2, a.inBounds 8 = true)
    ∧ (internalSHA256PadTraced c).1 = internalSHA256Pad c := by
  obtain ⟨_, h64, _⟩ := padLength_bounds c
  have htake : (PAD.take (padLength c)).length = padLength c := by
    rw [List.length_take, length_PAD]; omega
  have hlen8 : (be32enc_vect c.count 8).length = 8 := by
    rw [length_be32enc_vect]
  refine ⟨updateTraced_inBounds c input, ?_, ?_, updateTraced_fst c input, ?_, length_PAD,
    ?_, ?_, ?_⟩
  · intro dst src n h
    have := updateTraced_inBounds c input _ h
    simpa [Access.inBounds, SHA256_BLOCK_LENGTH] using this
  · intro src h
    have := updateTraced_inBounds c input _ h
    simpa [Access.inBounds] using this
  · rw [length_PAD]; exact h64
  · rw [padTraced_eq]
    intro a ha
    have := updateTraced_inBounds c (PAD.take (padLength c)) a ha
    rwa [htake] at this
  · rw [padTraced_eq]
    intro a ha
    have := updateTraced_inBounds _ (be32enc_vect c.count 8) a ha
    rwa [hlen8] at this
  · rw [padTraced_eq]
